import Mathlib

/-!
Verification of the parallel log analyzer.

The development shallowly embeds the analyzer's data model and operations:

* `src/analysis.py`   — `analyze_chunk`, `merge_partial_results`, `_safe_parse_datetime`
* `src/log_utils.py`  — `parse_log_line`, `chunk_file_lines`, `list_log_files`
* `src/processor.py`  — `Processor.process_chunk`, `worker_loop`, `run_sequential_from_dir`
* `src/log_Analyzer.py` — `worker_entry` (regex summarizer), `LogAnalyzer.__init__`
* `src/config.py`     — `validate_positive_int`
* `src/parallel_manager.py` — `ParallelManager.run`

Python dicts with string keys and integer counts are modelled as association
lists kept in insertion order (as CPython dicts are); Python dict equality,
which ignores insertion order, becomes pointwise equality of lookups.
-/

/-- A Python dict mapping string keys to non-negative counts, in insertion
order. -/
abbrev PyDict := List (String × Nat)

/-- `m.get(key)` — `None` when the key is absent; first binding wins (a dict
built by the analyzer never holds duplicate keys). -/
def dget : PyDict → String → Option Nat
  | [], _ => none
  | (k, v) :: rest, key => if k = key then some v else dget rest key

/-- `m.get(key, d)` — lookup with a default. -/
def dgetD (m : PyDict) (key : String) (d : Nat) : Nat :=
  (dget m key).getD d

/-- `m[key] = v` — update in place when the key is present, append otherwise
(CPython keeps the key's original position on update). -/
def dset : PyDict → String → Nat → PyDict
  | [], key, v => [(key, v)]
  | (k, w) :: rest, key, v =>
      if k = key then (k, v) :: rest else (k, w) :: dset rest key v

/-- `Counter` increment: `m[key] = m.get(key, 0) + 1`. -/
def dincr (m : PyDict) (key : String) : PyDict :=
  dset m key (dgetD m key 0 + 1)

/-- `m[key] = m.get(key, 0) + c` — the merge step for one key. -/
def daddc (m : PyDict) (key : String) (c : Nat) : PyDict :=
  dset m key (dgetD m key 0 + c)

/-- Sum of all values of a dict (`sum(m.values())`). -/
def dsum (m : PyDict) : Nat :=
  (m.map Prod.snd).sum

/-- Well-formedness shared by every dict a Python run can build: no duplicate
keys. -/
def DictWF (m : PyDict) : Prop :=
  (m.map Prod.fst).Nodup

instance (m : PyDict) : Decidable (DictWF m) := by
  unfold DictWF; infer_instance

theorem dget_dset (m : PyDict) (key k : String) (v : Nat) :
    dget (dset m key v) k = if k = key then some v else dget m k := by
  induction m with
  | nil =>
    by_cases h : k = key
    · simp [dset, dget, h]
    · simp [dset, dget, h, Ne.symm h]
  | cons p rest ih =>
    obtain ⟨k0, w⟩ := p
    by_cases h0 : k0 = key
    · subst h0
      by_cases h : k = k0
      · simp [dset, dget, h]
      · simp [dset, dget, h, Ne.symm h]
    · by_cases h : k = k0
      · subst h
        simp [dset, dget, h0]
      · simp [dset, dget, h0, h, Ne.symm h, ih]

theorem dgetD_dset (m : PyDict) (key k : String) (v : Nat) :
    dgetD (dset m key v) k 0 = if k = key then v else dgetD m k 0 := by
  unfold dgetD
  rw [dget_dset]
  by_cases h : k = key <;> simp [h]

theorem dgetD_dincr (m : PyDict) (key k : String) :
    dgetD (dincr m key) k 0 = dgetD m k 0 + (if k = key then 1 else 0) := by
  unfold dincr
  rw [dgetD_dset]
  by_cases h : k = key <;> simp [h]

theorem dgetD_daddc (m : PyDict) (key k : String) (c : Nat) :
    dgetD (daddc m key c) k 0 = dgetD m k 0 + (if k = key then c else 0) := by
  unfold daddc
  rw [dgetD_dset]
  by_cases h : k = key <;> simp [h]

theorem dget_isSome_dset (m : PyDict) (key k : String) (v : Nat) :
    (dget (dset m key v) k).isSome = ((dget m k).isSome || k = key) := by
  rw [dget_dset]
  by_cases h : k = key <;> simp [h]

theorem dget_eq_of_isSome (m : PyDict) (k : String) :
    (dget m k).isSome = true → dget m k = some (dgetD m k 0) := by
  intro h
  unfold dgetD
  obtain ⟨v, hv⟩ := Option.isSome_iff_exists.mp h
  simp [hv]

theorem dget_eq_none_iff (m : PyDict) (k : String) :
    dget m k = none ↔ (dget m k).isSome = false := by
  cases h : dget m k <;> simp

/-- Two dicts with the same present-key set and the same defaulted lookups
agree as Python dicts. -/
theorem dget_ext (m1 m2 : PyDict) (k : String)
    (hs : (dget m1 k).isSome = (dget m2 k).isSome)
    (hd : dgetD m1 k 0 = dgetD m2 k 0) :
    dget m1 k = dget m2 k := by
  cases h1 : dget m1 k with
  | none =>
    cases h2 : dget m2 k with
    | none => rfl
    | some v2 => rw [h1, h2] at hs; simp at hs
  | some v1 =>
    cases h2 : dget m2 k with
    | none => rw [h1, h2] at hs; simp at hs
    | some v2 =>
      unfold dgetD at hd
      rw [h1, h2] at hd
      simp at hd
      rw [hd]

/-! ## Python string primitives used by the per-line parser (log_utils.py) -/

/-- `line.split(sep, maxsplit)` over the character list: every occurrence of
`sep` splits (consecutive separators yield empty pieces) until `maxsplit`
splits have been made; the remainder is one final piece. -/
def splitSepAux (sep : Char) : List Char → Nat → List Char → List (List Char)
  | [], _, acc => [acc.reverse]
  | c :: rest, n, acc =>
    if c = sep then
      match n with
      | 0 => splitSepAux sep rest 0 (c :: acc)
      | m + 1 => acc.reverse :: splitSepAux sep rest m []
    else splitSepAux sep rest n (c :: acc)

/-- Python `s.split(" ", maxsplit)` (with an explicit separator). -/
def pySplit (s : String) (sep : Char) (maxsplit : Nat) : List String :=
  (splitSepAux sep s.toList maxsplit []).map (fun cs => String.mk cs)

/-- Strip characters satisfying `p` from both ends. -/
def stripCharsBy (p : Char → Bool) (cs : List Char) : List Char :=
  ((cs.dropWhile p).reverse.dropWhile p).reverse

/-- The ASCII whitespace Python's `str.strip()` removes. -/
def pyIsSpace (c : Char) : Bool :=
  c = ' ' || c = '\t' || c = '\n' || c = '\x0d' || c = '\x0b' || c = '\x0c'

/-- Python `s.strip()`. -/
def pyStrip (s : String) : String :=
  String.mk (stripCharsBy pyIsSpace s.toList)

/-- Python `s.strip("[]")`. -/
def stripBrackets (s : String) : String :=
  String.mk (stripCharsBy (fun c => c = '[' || c = ']') s.toList)

/-- Python `s.upper()` over the ASCII log alphabet, character by
character. -/
def pyUpper (s : String) : String :=
  String.mk (s.toList.map Char.toUpper)

/-- Python `s.startswith(pre)`. -/
def pyStartsWith (s pre : String) : Bool :=
  pre.toList.isPrefixOf s.toList

/-! ## log_utils.parse_log_line -/

/-- The dict returned by `parse_log_line` on success: keys `datetime`,
`level`, `ip`, `message`. -/
structure ParsedLine where
  datetime : String
  level : String
  ip : String
  message : String
deriving DecidableEq

/-- `log_utils.parse_log_line`: split the line as
`'YYYY-MM-DD HH:MM:SS,ms [LEVEL] IP message...'` on single spaces with
`maxsplit=3`; fewer than four parts means `None`; the level part is stripped
of whitespace and of square brackets; the rest is split once more into the
ip and the message. -/
def parse_log_line (line : String) : Option ParsedLine :=
  let parts := pySplit line ' ' 3
  if parts.length < 4 then none
  else
    let datetime_part := parts[0]! ++ " " ++ parts[1]!
    let level_part := pyStrip parts[2]!
    let rest := pyStrip parts[3]!
    let rest_parts := pySplit rest ' ' 1
    let ip_part := rest_parts.headD ""
    let message_part := if 1 < rest_parts.length then rest_parts[1]! else ""
    some ⟨datetime_part, stripBrackets level_part, ip_part, message_part⟩

/-! ## analysis._safe_parse_datetime

`datetime.strptime` with formats `"%Y-%m-%d %H:%M:%S,%f"` and
`"%Y-%m-%d %H:%M:%S"`, modelled after CPython's `_strptime` field regexes
(`%Y` is four digits; `%m` is `1[0-2]|0[1-9]|[1-9]`; `%d` is
`3[01]|[12]\d|0[1-9]|[1-9]`; `%H` is `2[0-3]|[0-1]\d|\d`; `%M`/`%S` are
`[0-5]\d|\d`; `%f` is one to six digits scaled to microseconds), requiring
the whole string to be consumed, followed by the `datetime` constructor's
range validation. -/

structure PyDateTime where
  year : Nat
  month : Nat
  day : Nat
  hour : Nat
  minute : Nat
  second : Nat
  microsecond : Nat
deriving DecidableEq

def digitVal (c : Char) : Nat := c.toNat - '0'.toNat

def parseYear4 : List Char → Option (Nat × List Char)
  | c1 :: c2 :: c3 :: c4 :: rest =>
    if c1.isDigit && c2.isDigit && c3.isDigit && c4.isDigit then
      some (1000 * digitVal c1 + 100 * digitVal c2 + 10 * digitVal c3 + digitVal c4, rest)
    else none
  | _ => none

def parseMonth : List Char → Option (Nat × List Char)
  | c1 :: c2 :: rest =>
    if c1 = '1' ∧ '0' ≤ c2 ∧ c2 ≤ '2' then some (10 + digitVal c2, rest)
    else if c1 = '0' ∧ '1' ≤ c2 ∧ c2 ≤ '9' then some (digitVal c2, rest)
    else if '1' ≤ c1 ∧ c1 ≤ '9' then some (digitVal c1, c2 :: rest)
    else none
  | [c1] => if '1' ≤ c1 ∧ c1 ≤ '9' then some (digitVal c1, []) else none
  | [] => none

def parseDay : List Char → Option (Nat × List Char)
  | c1 :: c2 :: rest =>
    if c1 = '3' ∧ '0' ≤ c2 ∧ c2 ≤ '1' then some (30 + digitVal c2, rest)
    else if ('1' ≤ c1 ∧ c1 ≤ '2') ∧ c2.isDigit then some (10 * digitVal c1 + digitVal c2, rest)
    else if c1 = '0' ∧ '1' ≤ c2 ∧ c2 ≤ '9' then some (digitVal c2, rest)
    else if '1' ≤ c1 ∧ c1 ≤ '9' then some (digitVal c1, c2 :: rest)
    else none
  | [c1] => if '1' ≤ c1 ∧ c1 ≤ '9' then some (digitVal c1, []) else none
  | [] => none

def parseHour : List Char → Option (Nat × List Char)
  | c1 :: c2 :: rest =>
    if c1 = '2' ∧ '0' ≤ c2 ∧ c2 ≤ '3' then some (20 + digitVal c2, rest)
    else if ('0' ≤ c1 ∧ c1 ≤ '1') ∧ c2.isDigit then some (10 * digitVal c1 + digitVal c2, rest)
    else if c1.isDigit then some (digitVal c1, c2 :: rest)
    else none
  | [c1] => if c1.isDigit then some (digitVal c1, []) else none
  | [] => none

def parseMinSec : List Char → Option (Nat × List Char)
  | c1 :: c2 :: rest =>
    if ('0' ≤ c1 ∧ c1 ≤ '5') ∧ c2.isDigit then some (10 * digitVal c1 + digitVal c2, rest)
    else if c1.isDigit then some (digitVal c1, c2 :: rest)
    else none
  | [c1] => if c1.isDigit then some (digitVal c1, []) else none
  | [] => none

/-- `%f`: one to six digits, scaled to microseconds. -/
def parseFrac (cs : List Char) : Option (Nat × List Char) :=
  let digits := (cs.takeWhile Char.isDigit).take 6
  if digits.isEmpty then none
  else
    some ((digits.foldl (fun a c => 10 * a + digitVal c) 0) * 10 ^ (6 - digits.length),
      cs.drop digits.length)

def expectChar (c : Char) : List Char → Option (List Char)
  | [] => none
  | x :: rest => if x = c then some rest else none

def isLeapYear (y : Nat) : Bool :=
  y % 4 = 0 && (y % 100 ≠ 0 || y % 400 = 0)

def daysInMonth (y m : Nat) : Nat :=
  if m = 2 then (if isLeapYear y then 29 else 28)
  else if m = 4 ∨ m = 6 ∨ m = 9 ∨ m = 11 then 30
  else 31

/-- The `datetime(...)` constructor's validation (MINYEAR ≤ year ≤ MAXYEAR,
month and day in range for the month, time fields in range). -/
def pyDatetimeNew (y mo d h mi s us : Nat) : Option PyDateTime :=
  if 1 ≤ y ∧ y ≤ 9999 ∧ 1 ≤ mo ∧ mo ≤ 12 ∧ 1 ≤ d ∧ d ≤ daysInMonth y mo ∧
      h ≤ 23 ∧ mi ≤ 59 ∧ s ≤ 59 ∧ us ≤ 999999 then
    some ⟨y, mo, d, h, mi, s, us⟩
  else none

/-- `datetime.strptime(s, fmt)` for the two formats used by the analyzer;
`withFrac` selects `"%Y-%m-%d %H:%M:%S,%f"` over `"%Y-%m-%d %H:%M:%S"`. -/
def strptimeLog (withFrac : Bool) (s : String) : Option PyDateTime := do
  let (y, cs) ← parseYear4 s.toList
  let cs ← expectChar '-' cs
  let (mo, cs) ← parseMonth cs
  let cs ← expectChar '-' cs
  let (d, cs) ← parseDay cs
  let cs ← expectChar ' ' cs
  let (h, cs) ← parseHour cs
  let cs ← expectChar ':' cs
  let (mi, cs) ← parseMinSec cs
  let cs ← expectChar ':' cs
  let (sec, cs) ← parseMinSec cs
  if withFrac then
    let cs ← expectChar ',' cs
    let (us, cs) ← parseFrac cs
    if cs.isEmpty then pyDatetimeNew y mo d h mi sec us else none
  else
    if cs.isEmpty then pyDatetimeNew y mo d h mi sec 0 else none

/-- `analysis._safe_parse_datetime`: empty string is `None`; otherwise try
the millisecond format, then the format without milliseconds; `None` when
both fail. -/
def safe_parse_datetime (dt_str : String) : Option PyDateTime :=
  if dt_str = "" then none
  else
    match strptimeLog true dt_str with
    | some dt => some dt
    | none => strptimeLog false dt_str

def pad2 (n : Nat) : String :=
  if n < 10 then "0" ++ toString n else toString n

def pad4 (n : Nat) : String :=
  if n < 10 then "000" ++ toString n
  else if n < 100 then "00" ++ toString n
  else if n < 1000 then "0" ++ toString n
  else toString n

/-- `dt.strftime("%Y-%m-%d %H")` — the hour bucket key of analysis.py. -/
def hourKey (dt : PyDateTime) : String :=
  pad4 dt.year ++ "-" ++ pad2 dt.month ++ "-" ++ pad2 dt.day ++ " " ++ pad2 dt.hour

/-! ## analysis.analyze_chunk -/

/-- The partial-result dict produced by `analyze_chunk` (and, with the same
shape, the accumulator built by `merge_partial_results`): keys
`lines_total`, `by_level`, `top_ips`, `errors_by_hour`. -/
structure PartialResult where
  lines_total : Nat
  by_level : PyDict
  top_ips : PyDict
  errors_by_hour : PyDict
deriving DecidableEq

/-- The body of `analyze_chunk`'s `for line in lines` loop: count the line;
if it parses, uppercase the level and count it when non-empty, count the ip
when non-empty, and when the level is exactly `"ERROR"` count one error
under the hour bucket of its timestamp, or under `"unknown"` when the
timestamp does not parse. -/
def analyzeStep (st : PartialResult) (line : String) : PartialResult :=
  let st1 : PartialResult := { st with lines_total := st.lines_total + 1 }
  match parse_log_line line with
  | none => st1
  | some parsed =>
    let level := pyUpper parsed.level
    let st2 := if level ≠ "" then { st1 with by_level := dincr st1.by_level level } else st1
    let st3 := if parsed.ip ≠ "" then { st2 with top_ips := dincr st2.top_ips parsed.ip } else st2
    if level = "ERROR" then
      { st3 with
        errors_by_hour := dincr st3.errors_by_hour
          (match safe_parse_datetime parsed.datetime with
            | some dt => hourKey dt
            | none => "unknown") }
    else st3

/-- `analysis.analyze_chunk`: fold the loop body over the chunk starting from
empty counters. -/
def analyze_chunk (lines : List String) : PartialResult :=
  lines.foldl analyzeStep ⟨0, [], [], []⟩

/-- The level key a line contributes to `by_level` (`none` when the line does
not parse or its uppercased level is empty). -/
def lineLevel (line : String) : Option String :=
  match parse_log_line line with
  | none => none
  | some parsed =>
    if pyUpper parsed.level ≠ "" then some (pyUpper parsed.level) else none

/-- The ip key a line contributes to `top_ips`. -/
def lineIp (line : String) : Option String :=
  match parse_log_line line with
  | none => none
  | some parsed => if parsed.ip ≠ "" then some parsed.ip else none

/-- The hour-bucket key a line contributes to `errors_by_hour` (`none` unless
the line parses with level `"ERROR"`). -/
def lineErrKey (line : String) : Option String :=
  match parse_log_line line with
  | none => none
  | some parsed =>
    if pyUpper parsed.level = "ERROR" then
      some (match safe_parse_datetime parsed.datetime with
        | some dt => hourKey dt
        | none => "unknown")
    else none

theorem analyzeStep_lines_total (st : PartialResult) (line : String) :
    (analyzeStep st line).lines_total = st.lines_total + 1 := by
  unfold analyzeStep
  cases parse_log_line line with
  | none => rfl
  | some parsed => simp only []; split_ifs <;> rfl

theorem analyzeStep_by_level (st : PartialResult) (line : String) :
    (analyzeStep st line).by_level =
      (lineLevel line).elim st.by_level (dincr st.by_level) := by
  unfold analyzeStep lineLevel
  cases parse_log_line line with
  | none => rfl
  | some parsed => simp only []; split_ifs <;> simp_all

theorem analyzeStep_top_ips (st : PartialResult) (line : String) :
    (analyzeStep st line).top_ips =
      (lineIp line).elim st.top_ips (dincr st.top_ips) := by
  unfold analyzeStep lineIp
  cases parse_log_line line with
  | none => rfl
  | some parsed => simp only []; split_ifs <;> simp_all

theorem analyzeStep_errors_by_hour (st : PartialResult) (line : String) :
    (analyzeStep st line).errors_by_hour =
      (lineErrKey line).elim st.errors_by_hour (dincr st.errors_by_hour) := by
  unfold analyzeStep lineErrKey
  cases parse_log_line line with
  | none => rfl
  | some parsed => simp only []; split_ifs <;> simp_all

/-! ## analysis.merge_partial_results -/

/-- One of the three `for key, cnt in part.items(): acc[key] = acc.get(key, 0) + cnt`
loops of `merge_partial_results`. -/
def mergeCounts (acc part : PyDict) : PyDict :=
  part.foldl (fun a kv => daddc a kv.1 kv.2) acc

/-- `analysis.merge_partial_results`. The Python function receives the
accumulator as a dict and first installs the missing keys with empty
defaults; starting a fold from `emptyAcc` below models the initially empty
accumulator dict. Adds `lines_total` and folds each of the three count maps
of the partial into the accumulator. -/
def merge_partial_results (acc part : PartialResult) : PartialResult :=
  { lines_total := acc.lines_total + part.lines_total
    by_level := mergeCounts acc.by_level part.by_level
    top_ips := mergeCounts acc.top_ips part.top_ips
    errors_by_hour := mergeCounts acc.errors_by_hour part.errors_by_hour }

/-- The accumulator `{}` of `run_sequential_from_dir` after
`merge_partial_results` installs its defaults. -/
def emptyAcc : PartialResult := ⟨0, [], [], []⟩

/-! ## Counting lemmas for the dict model -/

/-- Total contribution of key `k` across all bindings of `p` (equals
`p.get(k, 0)` when `p` has no duplicate keys). -/
def sumKey (p : PyDict) (k : String) : Nat :=
  (p.map (fun kv => if kv.1 = k then kv.2 else 0)).sum

theorem dgetD_cons (k0 : String) (w : Nat) (rest : PyDict) (k : String) :
    dgetD ((k0, w) :: rest) k 0 = if k0 = k then w else dgetD rest k 0 := by
  by_cases h : k0 = k <;> simp [dgetD, dget, h]

theorem sumKey_cons (a : String) (b : Nat) (m : PyDict) (k : String) :
    sumKey ((a, b) :: m) k = (if a = k then b else 0) + sumKey m k := by
  simp [sumKey]

theorem dsum_cons (a : String) (b : Nat) (m : PyDict) :
    dsum ((a, b) :: m) = b + dsum m := by
  simp [dsum]

theorem daddc_cons_ne (k0 : String) (w : Nat) (rest : PyDict) (key : String)
    (c : Nat) (h : ¬ k0 = key) :
    daddc ((k0, w) :: rest) key c = (k0, w) :: daddc rest key c := by
  unfold daddc
  rw [dgetD_cons, if_neg h]
  simp [dset, h]

theorem daddc_cons_eq (k0 : String) (w : Nat) (rest : PyDict) (c : Nat) :
    daddc ((k0, w) :: rest) k0 c = (k0, w + c) :: rest := by
  unfold daddc
  rw [dgetD_cons, if_pos rfl]
  simp [dset]

theorem sumKey_daddc (m : PyDict) (key : String) (c : Nat) (k : String) :
    sumKey (daddc m key c) k = sumKey m k + if k = key then c else 0 := by
  induction m with
  | nil =>
    by_cases h : k = key
    · simp [daddc, dset, dgetD, dget, sumKey, h]
    · simp [daddc, dset, dgetD, dget, sumKey, h, Ne.symm h]
  | cons p rest ih =>
    obtain ⟨k0, w⟩ := p
    by_cases h0 : k0 = key
    · subst h0
      rw [daddc_cons_eq, sumKey_cons, sumKey_cons]
      by_cases h : k0 = k
      · simp [h]; omega
      · simp [h, Ne.symm h]
    · rw [daddc_cons_ne _ _ _ _ _ h0, sumKey_cons, sumKey_cons, ih]
      omega

theorem dsum_daddc (m : PyDict) (key : String) (c : Nat) :
    dsum (daddc m key c) = dsum m + c := by
  induction m with
  | nil => simp [daddc, dset, dgetD, dget, dsum]
  | cons p rest ih =>
    obtain ⟨k0, w⟩ := p
    by_cases h0 : k0 = key
    · subst h0
      rw [daddc_cons_eq, dsum_cons, dsum_cons]
      omega
    · rw [daddc_cons_ne _ _ _ _ _ h0, dsum_cons, dsum_cons, ih]
      omega

theorem dget_isSome_iff_exists (m : PyDict) (k : String) :
    (dget m k).isSome = true ↔ ∃ kv ∈ m, kv.1 = k := by
  induction m with
  | nil => simp [dget]
  | cons p rest ih =>
    obtain ⟨k0, w⟩ := p
    by_cases h : k0 = k <;> simp [dget, h, ih]

theorem sumKey_eq_dgetD (p : PyDict) (k : String) (h : DictWF p) :
    sumKey p k = dgetD p k 0 := by
  induction p with
  | nil => simp [sumKey, dgetD, dget]
  | cons kv rest ih =>
    obtain ⟨k0, w⟩ := kv
    unfold DictWF at h
    simp only [List.map_cons, List.nodup_cons] at h
    obtain ⟨hnot, hrest⟩ := h
    rw [sumKey_cons, dgetD_cons]
    by_cases hk : k0 = k
    · have hz : sumKey rest k = 0 := by
        unfold sumKey
        apply List.sum_eq_zero
        intro x hx
        simp only [List.mem_map] at hx
        obtain ⟨kv2, hkv2, hback⟩ := hx
        have hne : ¬ kv2.1 = k := by
          intro he
          apply hnot
          rw [hk, ← he]
          exact List.mem_map_of_mem Prod.fst hkv2
        rw [if_neg hne] at hback
        omega
      rw [if_pos hk, if_pos hk, hz]
      omega
    · rw [if_neg hk, if_neg hk, ih hrest]
      omega

/-! ## mergeCounts lemmas -/

theorem dgetD_mergeCounts (p : PyDict) (acc : PyDict) (k : String) :
    dgetD (mergeCounts acc p) k 0 = dgetD acc k 0 + sumKey p k := by
  induction p generalizing acc with
  | nil => simp [mergeCounts, sumKey]
  | cons kv rest ih =>
    obtain ⟨k0, c⟩ := kv
    show dgetD (mergeCounts (daddc acc k0 c) rest) k 0 = _
    rw [ih, dgetD_daddc, sumKey_cons]
    by_cases h : k0 = k
    · simp [h]; omega
    · simp [h, Ne.symm h]

theorem dget_isSome_mergeCounts (p : PyDict) (acc : PyDict) (k : String) :
    (dget (mergeCounts acc p) k).isSome = true ↔
      (dget acc k).isSome = true ∨ (dget p k).isSome = true := by
  induction p generalizing acc with
  | nil => simp [mergeCounts, dget]
  | cons kv rest ih =>
    obtain ⟨k0, c⟩ := kv
    show (dget (mergeCounts (daddc acc k0 c) rest) k).isSome = true ↔ _
    rw [ih]
    unfold daddc
    rw [dget_isSome_dset]
    by_cases h : k0 = k
    · simp [dget, h]
    · simp [dget, h, Ne.symm h]

theorem dsum_mergeCounts (p : PyDict) (acc : PyDict) :
    dsum (mergeCounts acc p) = dsum acc + dsum p := by
  induction p generalizing acc with
  | nil => simp [mergeCounts, dsum]
  | cons kv rest ih =>
    obtain ⟨k0, c⟩ := kv
    show dsum (mergeCounts (daddc acc k0 c) rest) = _
    rw [ih, dsum_daddc, dsum_cons]
    omega

/-! ## Fold characterizations of analyze_chunk -/

theorem foldl_analyzeStep_lines_total (lines : List String) (st : PartialResult) :
    (lines.foldl analyzeStep st).lines_total = st.lines_total + lines.length := by
  induction lines generalizing st with
  | nil => simp
  | cons l ls ih =>
    simp only [List.foldl_cons, List.length_cons]
    rw [ih, analyzeStep_lines_total]
    omega

theorem sumKey_dincr (m : PyDict) (key k : String) :
    sumKey (dincr m key) k = sumKey m k + if k = key then 1 else 0 := by
  show sumKey (daddc m key 1) k = _
  rw [sumKey_daddc]

theorem dsum_dincr (m : PyDict) (key : String) :
    dsum (dincr m key) = dsum m + 1 := by
  show dsum (daddc m key 1) = _
  rw [dsum_daddc]

theorem foldl_analyzeStep_dgetD
    (proj : PartialResult → PyDict) (lineKey : String → Option String)
    (hstep : ∀ st line, proj (analyzeStep st line) =
      (lineKey line).elim (proj st) (dincr (proj st)))
    (lines : List String) (st : PartialResult) (k : String) :
    dgetD (proj (lines.foldl analyzeStep st)) k 0 =
      dgetD (proj st) k 0 + lines.countP (fun l => decide (lineKey l = some k)) := by
  induction lines generalizing st with
  | nil => simp
  | cons l ls ih =>
    simp only [List.foldl_cons, List.countP_cons]
    rw [ih (analyzeStep st l), hstep st l]
    cases hk : lineKey l with
    | none => simp
    | some key =>
      simp only [Option.elim_some]
      rw [dgetD_dincr]
      by_cases hkk : k = key
      · simp [hkk]
        omega
      · simp [hkk, Ne.symm hkk]

theorem foldl_analyzeStep_sumKey
    (proj : PartialResult → PyDict) (lineKey : String → Option String)
    (hstep : ∀ st line, proj (analyzeStep st line) =
      (lineKey line).elim (proj st) (dincr (proj st)))
    (lines : List String) (st : PartialResult) (k : String) :
    sumKey (proj (lines.foldl analyzeStep st)) k =
      sumKey (proj st) k + lines.countP (fun l => decide (lineKey l = some k)) := by
  induction lines generalizing st with
  | nil => simp
  | cons l ls ih =>
    simp only [List.foldl_cons, List.countP_cons]
    rw [ih (analyzeStep st l), hstep st l]
    cases hk : lineKey l with
    | none => simp
    | some key =>
      simp only [Option.elim_some]
      rw [sumKey_dincr]
      by_cases hkk : k = key
      · simp [hkk]
        omega
      · simp [hkk, Ne.symm hkk]

theorem foldl_analyzeStep_isSome
    (proj : PartialResult → PyDict) (lineKey : String → Option String)
    (hstep : ∀ st line, proj (analyzeStep st line) =
      (lineKey line).elim (proj st) (dincr (proj st)))
    (lines : List String) (st : PartialResult) (k : String) :
    ((dget (proj (lines.foldl analyzeStep st)) k).isSome = true ↔
      (dget (proj st) k).isSome = true ∨ ∃ l ∈ lines, lineKey l = some k) := by
  induction lines generalizing st with
  | nil => simp
  | cons l ls ih =>
    simp only [List.foldl_cons, List.mem_cons]
    rw [ih (analyzeStep st l), hstep st l]
    cases hk : lineKey l with
    | none =>
      simp only [Option.elim_none]
      constructor
      · rintro (h | ⟨x, hx, hP⟩)
        · exact Or.inl h
        · exact Or.inr ⟨x, Or.inr hx, hP⟩
      · rintro (h | ⟨x, hx | hx, hP⟩)
        · exact Or.inl h
        · subst hx
          rw [hP] at hk
          cases hk
        · exact Or.inr ⟨x, hx, hP⟩
    | some key =>
      simp only [Option.elim_some]
      unfold dincr
      rw [dget_isSome_dset]
      simp only [Bool.or_eq_true, decide_eq_true_eq]
      constructor
      · rintro ((h | h) | ⟨x, hx, hP⟩)
        · exact Or.inl h
        · exact Or.inr ⟨l, Or.inl rfl, by rw [hk, h]⟩
        · exact Or.inr ⟨x, Or.inr hx, hP⟩
      · rintro (h | ⟨x, hx | hx, hP⟩)
        · exact Or.inl (Or.inl h)
        · subst hx
          rw [hP] at hk
          injection hk with hkey
          exact Or.inl (Or.inr hkey)
        · exact Or.inr ⟨x, hx, hP⟩

theorem foldl_analyzeStep_dsum
    (proj : PartialResult → PyDict) (lineKey : String → Option String)
    (hstep : ∀ st line, proj (analyzeStep st line) =
      (lineKey line).elim (proj st) (dincr (proj st)))
    (lines : List String) (st : PartialResult) :
    dsum (proj (lines.foldl analyzeStep st)) =
      dsum (proj st) + lines.countP (fun l => (lineKey l).isSome) := by
  induction lines generalizing st with
  | nil => simp
  | cons l ls ih =>
    simp only [List.foldl_cons, List.countP_cons]
    rw [ih (analyzeStep st l), hstep st l]
    cases hk : lineKey l with
    | none => simp
    | some key =>
      simp only [Option.elim_some]
      rw [dsum_dincr]
      simp
      omega

/-! ## Fold characterizations of merge_partial_results -/

theorem merge_by_level (a p : PartialResult) :
    (merge_partial_results a p).by_level = mergeCounts a.by_level p.by_level := rfl

theorem merge_top_ips (a p : PartialResult) :
    (merge_partial_results a p).top_ips = mergeCounts a.top_ips p.top_ips := rfl

theorem merge_errors_by_hour (a p : PartialResult) :
    (merge_partial_results a p).errors_by_hour =
      mergeCounts a.errors_by_hour p.errors_by_hour := rfl

theorem foldl_merge_lines_total (ps : List PartialResult) (a : PartialResult) :
    (ps.foldl merge_partial_results a).lines_total =
      a.lines_total + (ps.map PartialResult.lines_total).sum := by
  induction ps generalizing a with
  | nil => simp
  | cons p rest ih =>
    simp only [List.foldl_cons, List.map_cons, List.sum_cons]
    rw [ih]
    show (merge_partial_results a p).lines_total + _ = _
    simp [merge_partial_results]
    omega

theorem foldl_merge_dgetD
    (proj : PartialResult → PyDict)
    (hproj : ∀ a p, proj (merge_partial_results a p) = mergeCounts (proj a) (proj p))
    (ps : List PartialResult) (a : PartialResult) (k : String) :
    dgetD (proj (ps.foldl merge_partial_results a)) k 0 =
      dgetD (proj a) k 0 + (ps.map (fun p => sumKey (proj p) k)).sum := by
  induction ps generalizing a with
  | nil => simp
  | cons p rest ih =>
    simp only [List.foldl_cons, List.map_cons, List.sum_cons]
    rw [ih, hproj, dgetD_mergeCounts]
    omega

theorem foldl_merge_isSome
    (proj : PartialResult → PyDict)
    (hproj : ∀ a p, proj (merge_partial_results a p) = mergeCounts (proj a) (proj p))
    (ps : List PartialResult) (a : PartialResult) (k : String) :
    ((dget (proj (ps.foldl merge_partial_results a)) k).isSome = true ↔
      (dget (proj a) k).isSome = true ∨ ∃ p ∈ ps, (dget (proj p) k).isSome = true) := by
  induction ps generalizing a with
  | nil => simp
  | cons p rest ih =>
    simp only [List.foldl_cons, List.mem_cons]
    rw [ih, hproj, dget_isSome_mergeCounts]
    constructor
    · rintro ((h | h) | ⟨x, hx, hP⟩)
      · exact Or.inl h
      · exact Or.inr ⟨p, Or.inl rfl, h⟩
      · exact Or.inr ⟨x, Or.inr hx, hP⟩
    · rintro (h | ⟨x, hx | hx, hP⟩)
      · exact Or.inl (Or.inl h)
      · subst hx
        exact Or.inl (Or.inr hP)
      · exact Or.inr ⟨x, hx, hP⟩

/-! ## Closed forms for analyze_chunk -/

theorem analyze_chunk_lines_total (lines : List String) :
    (analyze_chunk lines).lines_total = lines.length := by
  have h := foldl_analyzeStep_lines_total lines ⟨0, [], [], []⟩
  simpa [analyze_chunk] using h

theorem analyze_chunk_by_level_dgetD (lines : List String) (k : String) :
    dgetD (analyze_chunk lines).by_level k 0 =
      lines.countP (fun l => decide (lineLevel l = some k)) := by
  have h := foldl_analyzeStep_dgetD (fun st => st.by_level) lineLevel
    (fun st line => analyzeStep_by_level st line) lines ⟨0, [], [], []⟩ k
  simpa [analyze_chunk, dgetD, dget] using h

theorem analyze_chunk_by_level_sumKey (lines : List String) (k : String) :
    sumKey (analyze_chunk lines).by_level k =
      lines.countP (fun l => decide (lineLevel l = some k)) := by
  have h := foldl_analyzeStep_sumKey (fun st => st.by_level) lineLevel
    (fun st line => analyzeStep_by_level st line) lines ⟨0, [], [], []⟩ k
  simpa [analyze_chunk, sumKey] using h

theorem analyze_chunk_by_level_isSome (lines : List String) (k : String) :
    ((dget (analyze_chunk lines).by_level k).isSome = true ↔
      ∃ l ∈ lines, lineLevel l = some k) := by
  have h := foldl_analyzeStep_isSome (fun st => st.by_level) lineLevel
    (fun st line => analyzeStep_by_level st line) lines ⟨0, [], [], []⟩ k
  simpa [analyze_chunk, dget] using h

theorem analyze_chunk_top_ips_dgetD (lines : List String) (k : String) :
    dgetD (analyze_chunk lines).top_ips k 0 =
      lines.countP (fun l => decide (lineIp l = some k)) := by
  have h := foldl_analyzeStep_dgetD (fun st => st.top_ips) lineIp
    (fun st line => analyzeStep_top_ips st line) lines ⟨0, [], [], []⟩ k
  simpa [analyze_chunk, dgetD, dget] using h

theorem analyze_chunk_top_ips_sumKey (lines : List String) (k : String) :
    sumKey (analyze_chunk lines).top_ips k =
      lines.countP (fun l => decide (lineIp l = some k)) := by
  have h := foldl_analyzeStep_sumKey (fun st => st.top_ips) lineIp
    (fun st line => analyzeStep_top_ips st line) lines ⟨0, [], [], []⟩ k
  simpa [analyze_chunk, sumKey] using h

theorem analyze_chunk_top_ips_isSome (lines : List String) (k : String) :
    ((dget (analyze_chunk lines).top_ips k).isSome = true ↔
      ∃ l ∈ lines, lineIp l = some k) := by
  have h := foldl_analyzeStep_isSome (fun st => st.top_ips) lineIp
    (fun st line => analyzeStep_top_ips st line) lines ⟨0, [], [], []⟩ k
  simpa [analyze_chunk, dget] using h

theorem analyze_chunk_errors_dgetD (lines : List String) (k : String) :
    dgetD (analyze_chunk lines).errors_by_hour k 0 =
      lines.countP (fun l => decide (lineErrKey l = some k)) := by
  have h := foldl_analyzeStep_dgetD (fun st => st.errors_by_hour) lineErrKey
    (fun st line => analyzeStep_errors_by_hour st line) lines ⟨0, [], [], []⟩ k
  simpa [analyze_chunk, dgetD, dget] using h

theorem analyze_chunk_errors_sumKey (lines : List String) (k : String) :
    sumKey (analyze_chunk lines).errors_by_hour k =
      lines.countP (fun l => decide (lineErrKey l = some k)) := by
  have h := foldl_analyzeStep_sumKey (fun st => st.errors_by_hour) lineErrKey
    (fun st line => analyzeStep_errors_by_hour st line) lines ⟨0, [], [], []⟩ k
  simpa [analyze_chunk, sumKey] using h

theorem analyze_chunk_errors_isSome (lines : List String) (k : String) :
    ((dget (analyze_chunk lines).errors_by_hour k).isSome = true ↔
      ∃ l ∈ lines, lineErrKey l = some k) := by
  have h := foldl_analyzeStep_isSome (fun st => st.errors_by_hour) lineErrKey
    (fun st line => analyzeStep_errors_by_hour st line) lines ⟨0, [], [], []⟩ k
  simpa [analyze_chunk, dget] using h

theorem analyze_chunk_errors_dsum (lines : List String) :
    dsum (analyze_chunk lines).errors_by_hour =
      lines.countP (fun l => (lineErrKey l).isSome) := by
  have h := foldl_analyzeStep_dsum (fun st => st.errors_by_hour) lineErrKey
    (fun st line => analyzeStep_errors_by_hour st line) lines ⟨0, [], [], []⟩
  simpa [analyze_chunk, dsum] using h

/-! ## log_utils.chunk_file_lines -/

/-- The loop of `chunk_file_lines`: append each line to the current chunk
buffer; when the buffer reaches `lines_per_chunk` lines, yield it with the
next ascending index and reset; after the loop, yield the final non-empty
remainder. -/
def chunkAux (c : Nat) : List String → List String → Nat → List (Nat × List String)
  | [], buf, idx => if buf.isEmpty then [] else [(idx, buf)]
  | l :: rest, buf, idx =>
    let buf2 := buf ++ [l]
    if c ≤ buf2.length then (idx, buf2) :: chunkAux c rest [] (idx + 1)
    else chunkAux c rest buf2 idx

/-- `log_utils.chunk_file_lines` on a file already read as its list of
lines (each `line.rstrip("\n")`): the generated `(chunk_index, lines_list)`
pairs. -/
def chunk_file_lines (c : Nat) (ls : List String) : List (Nat × List String) :=
  chunkAux c ls [] 0

theorem chunkAux_join (c : Nat) (ls : List String) :
    ∀ (buf : List String) (idx : Nat),
      ((chunkAux c ls buf idx).map Prod.snd).flatten = buf ++ ls := by
  induction ls with
  | nil =>
    intro buf idx
    by_cases h : buf.isEmpty
    · simp [chunkAux, h, List.isEmpty_iff.mp h]
    · simp [chunkAux, h]
  | cons l rest ih =>
    intro buf idx
    show ((if c ≤ (buf ++ [l]).length then
        (idx, buf ++ [l]) :: chunkAux c rest [] (idx + 1)
      else chunkAux c rest (buf ++ [l]) idx).map Prod.snd).flatten = _
    by_cases h : c ≤ (buf ++ [l]).length
    · rw [if_pos h]
      simp only [List.map_cons, List.flatten_cons]
      rw [ih [] (idx + 1)]
      simp
    · rw [if_neg h]
      rw [ih (buf ++ [l]) idx]
      simp

theorem chunkAux_indices (c : Nat) (ls : List String) :
    ∀ (buf : List String) (idx : Nat),
      (chunkAux c ls buf idx).map Prod.fst =
        List.range' idx (chunkAux c ls buf idx).length := by
  induction ls with
  | nil =>
    intro buf idx
    by_cases h : buf.isEmpty <;> simp [chunkAux, h, List.range']
  | cons l rest ih =>
    intro buf idx
    show (if c ≤ (buf ++ [l]).length then
        (idx, buf ++ [l]) :: chunkAux c rest [] (idx + 1)
      else chunkAux c rest (buf ++ [l]) idx).map Prod.fst =
      List.range' idx (if c ≤ (buf ++ [l]).length then
        (idx, buf ++ [l]) :: chunkAux c rest [] (idx + 1)
      else chunkAux c rest (buf ++ [l]) idx).length
    by_cases h : c ≤ (buf ++ [l]).length
    · rw [if_pos h]
      simp only [List.map_cons, List.length_cons]
      rw [ih [] (idx + 1)]
      rw [List.range'_succ]
    · rw [if_neg h]
      exact ih (buf ++ [l]) idx

/-- Pure take/drop view of the chunking loop, fuelled by the number of
lines; used only to reason about chunk sizes. -/
def chunksTake (c : Nat) : Nat → List String → List (List String)
  | 0, _ => []
  | _ + 1, [] => []
  | fuel + 1, ls => ls.take c :: chunksTake c fuel (ls.drop c)

theorem chunksTake_nil (c fuel : Nat) : chunksTake c fuel [] = [] := by
  cases fuel <;> rfl

theorem chunksTake_cons (c fuel : Nat) (l : String) (ls : List String) :
    chunksTake c (fuel + 1) (l :: ls) =
      (l :: ls).take c :: chunksTake c fuel ((l :: ls).drop c) := rfl

theorem chunksTake_fuel (c : Nat) (hc : 0 < c) :
    ∀ (fuel : Nat) (ls : List String), ls.length ≤ fuel →
      chunksTake c fuel ls = chunksTake c ls.length ls := by
  intro fuel
  induction fuel using Nat.strong_induction_on with
  | _ fuel ih =>
    intro ls hlen
    cases ls with
    | nil => rw [chunksTake_nil, chunksTake_nil]
    | cons l rest =>
      cases fuel with
      | zero => simp at hlen
      | succ f =>
        simp only [List.length_cons] at hlen
        rw [chunksTake_cons]
        have hlsub : ((l :: rest).drop c).length ≤ f := by
          simp only [List.length_drop, List.length_cons]
          omega
        rw [ih f (by omega) _ hlsub]
        simp only [List.length_cons]
        rw [chunksTake_cons]
        have hlen2 : ((l :: rest).drop c).length ≤ rest.length := by
          simp only [List.length_drop, List.length_cons]
          omega
        rw [ih rest.length (by omega) _ hlen2]

theorem chunkAux_snd_eq_chunksTake (c : Nat) (hc : 0 < c) (ls : List String) :
    ∀ (buf : List String) (idx : Nat), buf.length < c →
      (chunkAux c ls buf idx).map Prod.snd =
        chunksTake c (buf.length + ls.length) (buf ++ ls) := by
  induction ls with
  | nil =>
    intro buf idx hbuf
    by_cases h : buf.isEmpty
    · have hb : buf = [] := List.isEmpty_iff.mp h
      subst hb
      simp [chunkAux, chunksTake]
    · have hne : buf ≠ [] := by
        intro he
        rw [he] at h
        exact h rfl
      obtain ⟨b, bs, hbs⟩ := List.exists_cons_of_ne_nil hne
      subst hbs
      rw [show (chunkAux c [] (b :: bs) idx) = [(idx, b :: bs)] by simp [chunkAux]]
      simp only [List.map_cons, List.map_nil, List.append_nil, List.length_cons,
        List.length_nil, Nat.add_zero]
      rw [chunksTake_cons]
      have htake : (b :: bs).take c = b :: bs :=
        List.take_of_length_le (by simpa using Nat.le_of_lt hbuf)
      have hdrop : (b :: bs).drop c = [] :=
        List.drop_eq_nil_of_le (by simpa using Nat.le_of_lt hbuf)
      rw [htake, hdrop, chunksTake_nil]
  | cons l rest ih =>
    intro buf idx hbuf
    show (if c ≤ (buf ++ [l]).length then
        (idx, buf ++ [l]) :: chunkAux c rest [] (idx + 1)
      else chunkAux c rest (buf ++ [l]) idx).map Prod.snd = _
    by_cases h : c ≤ (buf ++ [l]).length
    · rw [if_pos h]
      have hlen : (buf ++ [l]).length = c := by
        simp only [List.length_append, List.length_cons, List.length_nil] at h ⊢
        omega
      simp only [List.map_cons]
      rw [ih [] (idx + 1) hc]
      simp only [List.nil_append, List.length_nil, Nat.zero_add]
      have harr : buf ++ l :: rest = (buf ++ [l]) ++ rest := by simp
      have hbl : buf.length + (l :: rest).length = (c - 1 + rest.length) + 1 := by
        simp only [List.length_append, List.length_cons, List.length_nil] at hlen
        simp only [List.length_cons]
        omega
      rw [harr, hbl]
      cases hfull : (buf ++ [l]) ++ rest with
      | nil =>
        exfalso
        have hlf := congrArg List.length hfull
        rw [List.length_append, hlen] at hlf
        simp at hlf
        omega
      | cons x xs =>
        rw [chunksTake_cons, ← hfull]
        have htake : ((buf ++ [l]) ++ rest).take c = buf ++ [l] := by
          rw [← hlen]
          exact List.take_left _ _
        have hdrop : ((buf ++ [l]) ++ rest).drop c = rest := by
          rw [← hlen]
          exact List.drop_left _ _
        rw [htake, hdrop]
        congr 1
        rw [chunksTake_fuel c hc (c - 1 + rest.length) rest (by omega)]
    · rw [if_neg h]
      rw [ih (buf ++ [l]) idx (by
        simp only [List.length_append, List.length_cons, List.length_nil] at h ⊢
        omega)]
      have harr : buf ++ [l] ++ (l :: rest).tail = buf ++ l :: rest := by simp
      simp only [List.length_append, List.length_cons, List.length_nil, List.append_assoc,
        List.cons_append, List.nil_append]
      congr 1
      omega

theorem chunksTake_length_pos (c : Nat) (x : String) (xs : List String) :
    0 < (chunksTake c (x :: xs).length (x :: xs)).length := by
  rw [show (x :: xs).length = xs.length + 1 from rfl, chunksTake_cons]
  simp

/-- Sizes of the chunks of a non-empty file: every chunk holds exactly `c`
lines except the last, which holds `len % c` lines when `c` does not divide
the line count (and `c` lines when it does). -/
theorem chunksTake_lengths_eq (c : Nat) (hc : 0 < c) :
    ∀ (n : Nat) (ls : List String), ls.length = n → ls ≠ [] →
      (chunksTake c ls.length ls).map List.length =
        List.replicate ((chunksTake c ls.length ls).length - 1) c ++
          [if ls.length % c = 0 then c else ls.length % c] := by
  intro n
  induction n using Nat.strong_induction_on with
  | _ n ih =>
    intro ls hn hne
    obtain ⟨l, rest, rfl⟩ := List.exists_cons_of_ne_nil hne
    have hexp : chunksTake c (l :: rest).length (l :: rest) =
        (l :: rest).take c :: chunksTake c ((l :: rest).drop c).length ((l :: rest).drop c) := by
      rw [show (l :: rest).length = rest.length + 1 from rfl, chunksTake_cons,
        chunksTake_fuel c hc rest.length ((l :: rest).drop c)
          (by simp only [List.length_drop, List.length_cons]; omega)]
    rw [hexp]
    cases hd : (l :: rest).drop c with
    | nil =>
      have hdl := congrArg List.length hd
      simp only [List.length_drop, List.length_cons, List.length_nil] at hdl
      rw [chunksTake_nil]
      simp only [List.map_cons, List.map_nil, List.length_cons, List.length_nil,
        Nat.add_sub_cancel, List.replicate, List.nil_append]
      have htl : ((l :: rest).take c).length = (l :: rest).length := by
        rw [List.take_of_length_le]
        simp only [List.length_cons]
        omega
      rw [htl]
      simp only [List.length_cons]
      by_cases hmod : (rest.length + 1) % c = 0
      · rw [if_pos hmod]
        have hdvd : c ∣ rest.length + 1 := Nat.dvd_of_mod_eq_zero hmod
        have hle : c ≤ rest.length + 1 := Nat.le_of_dvd (by omega) hdvd
        have heq : rest.length + 1 = c := by omega
        rw [heq]
      · rw [if_neg hmod]
        have hlt : rest.length + 1 < c := by
          have hle : rest.length + 1 ≤ c := by omega
          rcases Nat.lt_or_eq_of_le hle with h | h
          · exact h
          · exact absurd (by rw [h]; exact Nat.mod_self c) hmod
        rw [Nat.mod_eq_of_lt hlt]
    | cons x xs =>
      have hdl := congrArg List.length hd
      simp only [List.length_drop, List.length_cons] at hdl
      have hcN : c < (l :: rest).length := by
        simp only [List.length_cons]
        omega
      have hrec := ih ((l :: rest).drop c).length
        (by
          simp only [List.length_drop, List.length_cons] at hn ⊢
          omega)
        ((l :: rest).drop c) rfl (by rw [hd]; simp)
      rw [hd] at hrec
      simp only [List.map_cons]
      rw [hrec]
      have hpos : 0 < (chunksTake c (x :: xs).length (x :: xs)).length :=
        chunksTake_length_pos c x xs
      have htl : ((l :: rest).take c).length = c := by
        rw [List.length_take]
        simp only [List.length_cons]
        omega
      have hmodeq : (x :: xs).length % c = (l :: rest).length % c := by
        have h1 : (x :: xs).length = (l :: rest).length - c := by
          simp only [List.length_cons]
          omega
        rw [h1]
        exact (Nat.mod_eq_sub_mod (le_of_lt hcN)).symm
      rw [htl, hmodeq]
      simp only [List.length_cons]
      have hpos2 : 0 < (chunksTake c (xs.length + 1) (x :: xs)).length := by
        simpa using hpos
      rw [show (chunksTake c (xs.length + 1) (x :: xs)).length + 1 - 1
        = ((chunksTake c (xs.length + 1) (x :: xs)).length - 1) + 1 by omega]
      rw [List.replicate_succ]
      simp

/-! ## log_utils.list_log_files -/

/-- One insertion step of the sort performed by `paths.sort()`. -/
def insertSorted (x : String) : List String → List String
  | [] => [x]
  | y :: ys => if x ≤ y then x :: y :: ys else y :: insertSorted x ys

/-- `paths.sort()`: the matched paths in ascending lexicographic order. -/
def sortStrings (l : List String) : List String :=
  l.foldr insertSorted []

theorem insertSorted_perm (x : String) (l : List String) :
    List.Perm (insertSorted x l) (x :: l) := by
  induction l with
  | nil => simp [insertSorted]
  | cons y ys ih =>
    by_cases h : x ≤ y
    · simp [insertSorted, h]
    · rw [show insertSorted x (y :: ys) = y :: insertSorted x ys by simp [insertSorted, h]]
      exact (ih.cons y).trans (List.Perm.swap x y ys)

theorem mem_insertSorted (x b : String) (l : List String) :
    b ∈ insertSorted x l ↔ b = x ∨ b ∈ l := by
  rw [(insertSorted_perm x l).mem_iff]
  simp

theorem insertSorted_sorted (x : String) (l : List String)
    (h : l.Sorted (· ≤ ·)) : (insertSorted x l).Sorted (· ≤ ·) := by
  induction l with
  | nil => simp [insertSorted]
  | cons y ys ih =>
    rw [List.sorted_cons] at h
    obtain ⟨hy, hys⟩ := h
    by_cases hxy : x ≤ y
    · rw [show insertSorted x (y :: ys) = x :: y :: ys by simp [insertSorted, hxy]]
      rw [List.sorted_cons]
      refine ⟨?_, ?_⟩
      · intro b hb
        rcases List.mem_cons.mp hb with rfl | hb
        · exact hxy
        · exact le_trans hxy (hy b hb)
      · rw [List.sorted_cons]
        exact ⟨hy, hys⟩
    · rw [show insertSorted x (y :: ys) = y :: insertSorted x ys by simp [insertSorted, hxy]]
      rw [List.sorted_cons]
      refine ⟨?_, ih hys⟩
      intro b hb
      rcases (mem_insertSorted x b ys).mp hb with rfl | hb
      · exact le_of_not_le hxy
      · exact hy b hb

theorem sortStrings_sorted (l : List String) : (sortStrings l).Sorted (· ≤ ·) := by
  induction l with
  | nil => simp [sortStrings]
  | cons x xs ih => exact insertSorted_sorted x _ ih

theorem sortStrings_perm (l : List String) : List.Perm (sortStrings l) l := by
  induction l with
  | nil => rfl
  | cons x xs ih => exact (insertSorted_perm x (sortStrings xs)).trans (ih.cons x)

/-- `log_utils.list_log_files` with the filesystem abstracted: `names` are
the directory's regular files and each element of `patterns` is the
predicate `fnmatch(name, pat)` of one glob call; the per-pattern matches are
concatenated (`files.extend(matches)`) and then sorted for reproducibility
(`paths.sort()`). -/
def list_log_files (names : List String) (patterns : List (String → Bool)) :
    List String :=
  sortStrings ((patterns.map (fun pat => names.filter pat)).flatten)

/-! ## processor.Processor.process_chunk and run_sequential_from_dir -/

/-- The dict `Processor.process_chunk` returns: provenance metadata plus
status and the analysis result. -/
structure ChunkOutcome where
  file : String
  chunk_index : Nat
  processor : String
  status : String
  result : Option PartialResult
deriving DecidableEq

/-- `processor.Processor.process_chunk`: wrap `analysis.analyze_chunk` with
provenance metadata. In this pure embedding `analyze_chunk` is total, so
the `except` branch (status `"error"`, result `None`) is unreachable and
the outcome always carries status `"ok"`. -/
def process_chunk (name : String) (file : String) (chunk_index : Nat)
    (lines : List String) : ChunkOutcome :=
  { file := file, chunk_index := chunk_index, processor := name,
    status := "ok", result := some (analyze_chunk lines) }

/-- The lines of file `name` in the directory model (a directory is the
list of its files as (name, lines) pairs). -/
def fileContents (dir : List (String × List String)) (name : String) :
    List String :=
  (List.lookup name dir).getD []

/-- `log_utils.iter_chunks_from_dir`: chunk every listed file, in listing
order, tagging every chunk with its file and chunk index. -/
def iter_chunks_from_dir (c : Nat) (dir : List (String × List String))
    (patterns : List (String → Bool)) : List (String × Nat × List String) :=
  ((list_log_files (dir.map Prod.fst) patterns).map
    (fun name => (chunk_file_lines c (fileContents dir name)).map
      (fun ic => (name, ic.1, ic.2)))).flatten

/-- `processor.run_sequential_from_dir`: process every chunk with a
Processor named "sequential" and fold the ok results into the accumulator
with `merge_partial_results`; error results are logged and skipped. -/
def run_sequential_from_dir (c : Nat) (dir : List (String × List String))
    (patterns : List (String → Bool)) : PartialResult :=
  (iter_chunks_from_dir c dir patterns).foldl
    (fun acc t =>
      let res := process_chunk "sequential" t.1 t.2.1 t.2.2
      if res.status = "ok" then
        match res.result with
        | some r => merge_partial_results acc r
        | none => acc
      else acc)
    emptyAcc

theorem run_sequential_eq (c : Nat) (dir : List (String × List String))
    (patterns : List (String → Bool)) :
    run_sequential_from_dir c dir patterns =
      ((iter_chunks_from_dir c dir patterns).map
        (fun t => analyze_chunk t.2.2)).foldl merge_partial_results emptyAcc := by
  unfold run_sequential_from_dir
  generalize iter_chunks_from_dir c dir patterns = ts
  suffices h : ∀ acc, ts.foldl
      (fun acc t =>
        let res := process_chunk "sequential" t.1 t.2.1 t.2.2
        if res.status = "ok" then
          match res.result with
          | some r => merge_partial_results acc r
          | none => acc
        else acc) acc =
      (ts.map (fun t => analyze_chunk t.2.2)).foldl merge_partial_results acc by
    exact h emptyAcc
  induction ts with
  | nil => intro acc; rfl
  | cons t ts ih =>
    intro acc
    simp only [List.foldl_cons, List.map_cons]
    rw [← ih]
    congr 1

theorem sum_chunk_lengths (c : Nat) (ls : List String) :
    ((chunk_file_lines c ls).map (fun ic => ic.2.length)).sum = ls.length := by
  have h := chunkAux_join c ls [] 0
  have h2 := congrArg List.length h
  rw [List.length_flatten] at h2
  simpa [chunk_file_lines, List.map_map, Function.comp] using h2

theorem per_file_lines_sum (c : Nat) (name : String) (ls : List String) :
    ((((chunk_file_lines c ls).map (fun ic => (name, ic.1, ic.2))).map
      (fun t => analyze_chunk t.2.2)).map PartialResult.lines_total).sum = ls.length := by
  simp only [List.map_map]
  rw [show (chunk_file_lines c ls).map
      (PartialResult.lines_total ∘ ((fun t => analyze_chunk t.2.2) ∘ (fun ic => (name, ic.1, ic.2)))) =
      (chunk_file_lines c ls).map (fun ic => ic.2.length) from
    List.map_congr_left (fun ic _ => by
      simp only [Function.comp]
      exact analyze_chunk_lines_total ic.2)]
  exact sum_chunk_lengths c ls

/-- Conservation for the sequential pipeline: `lines_total` is the exact
line count over all listed files. -/
theorem run_sequential_lines_total (c : Nat) (dir : List (String × List String))
    (patterns : List (String → Bool)) :
    (run_sequential_from_dir c dir patterns).lines_total =
      ((list_log_files (dir.map Prod.fst) patterns).map
        (fun name => (fileContents dir name).length)).sum := by
  rw [run_sequential_eq, foldl_merge_lines_total]
  show 0 + _ = _
  rw [Nat.zero_add]
  unfold iter_chunks_from_dir
  generalize list_log_files (dir.map Prod.fst) patterns = names
  induction names with
  | nil => simp
  | cons n ns ih =>
    simp only [List.map_cons, List.flatten_cons, List.map_append, List.sum_append,
      List.sum_cons]
    rw [per_file_lines_sum c n (fileContents dir n), ih]

/-! ## log_Analyzer.py — the regexes and worker_entry

`LEVEL_RE = r"\b(INFO|WARN(?:ING)?|ERROR)\b"` (case-insensitive),
`IP_RE = r"\b\d{1,3}(?:\.\d{1,3}){3}\b"`,
`DATE_DAY_RE = r"(\d{4}-\d{2}-\d{2})"`, each used with `.search` (leftmost
match; alternatives tried left to right with backtracking). `\w` is modelled
over ASCII, which covers the log alphabet. Every alternative of LEVEL_RE and
of IP_RE begins and ends with a word character, so the `\b` assertions
reduce to "previous character absent or non-word" and "next character absent
or non-word". -/

def isWordChar (ch : Char) : Bool := ch.isAlphanum || ch = '_'

def boundaryBefore (prev : Option Char) : Bool :=
  match prev with
  | none => true
  | some ch => !(isWordChar ch)

def boundaryAfterOk (rest : List Char) : Bool :=
  match rest with
  | [] => true
  | ch :: _ => !(isWordChar ch)

/-- Case-insensitive literal prefix match (the pattern is lowercase);
returns the remainder on success. -/
def matchCI : List Char → List Char → Option (List Char)
  | [], rest => some rest
  | _ :: _, [] => none
  | p :: ps, c :: rest => if c.toLower = p then matchCI ps rest else none

/-- Try one LEVEL_RE alternative at the current position, with the trailing
word boundary. -/
def tryLevelPat (pat : List Char) (res : String) (cs : List Char) : Option String :=
  match matchCI pat cs with
  | some rest => if boundaryAfterOk rest then some res else none
  | none => none

/-- All LEVEL_RE alternatives at one position, in regex backtracking order:
`INFO`, then `WARN` with its greedy optional `ING`, then `ERROR`. The
returned string is `m.group(1).upper()`. -/
def levelMatchAt (prev : Option Char) (cs : List Char) : Option String :=
  if !boundaryBefore prev then none
  else
    match tryLevelPat ['i', 'n', 'f', 'o'] "INFO" cs with
    | some s => some s
    | none =>
      match tryLevelPat ['w', 'a', 'r', 'n', 'i', 'n', 'g'] "WARNING" cs with
      | some s => some s
      | none =>
        match tryLevelPat ['w', 'a', 'r', 'n'] "WARN" cs with
        | some s => some s
        | none => tryLevelPat ['e', 'r', 'r', 'o', 'r'] "ERROR" cs

def levelSearchAux : Option Char → List Char → Option String
  | _, [] => none
  | prev, c :: rest =>
    match levelMatchAt prev (c :: rest) with
    | some s => some s
    | none => levelSearchAux (some c) rest

/-- `LEVEL_RE.search(line)` followed by `m.group(1).upper()`. -/
def LEVEL_RE_search (s : String) : Option String :=
  levelSearchAux none s.toList

def errorSearchAux : Option Char → List Char → Bool
  | _, [] => false
  | prev, c :: rest =>
    (boundaryBefore prev &&
      (match matchCI ['e', 'r', 'r', 'o', 'r'] (c :: rest) with
        | some r => boundaryAfterOk r
        | none => false)) ||
    errorSearchAux (some c) rest

/-- `re.search(r"\bERROR\b", line, re.I) is not None`. -/
def hasErrorWord (s : String) : Bool :=
  errorSearchAux none s.toList

/-- Candidate greedy matches of `\d{1,3}`: the runs of 1–3 leading digits,
longest first, paired with the rest. -/
def parseIpDigits (cs : List Char) : List (List Char × List Char) :=
  let ds := (cs.takeWhile Char.isDigit).take 3
  (List.range ds.length).map
    (fun i => (ds.take (ds.length - i), cs.drop (ds.length - i)))

/-- `(\.\d{1,3}){n}\b` with backtracking across the digit-run choices;
returns the matched text. -/
def ipTail : Nat → List Char → Option (List Char)
  | 0, cs => if boundaryAfterOk cs then some [] else none
  | m + 1, cs =>
    match cs with
    | '.' :: cs2 =>
      (parseIpDigits cs2).findSome? (fun dr =>
        match ipTail m dr.2 with
        | some t => some ('.' :: (dr.1 ++ t))
        | none => none)
    | _ => none

def ipMatchAt (prev : Option Char) (cs : List Char) : Option String :=
  if !boundaryBefore prev then none
  else
    (parseIpDigits cs).findSome? (fun dr =>
      match ipTail 3 dr.2 with
      | some t => some (String.mk (dr.1 ++ t))
      | none => none)

def ipSearchAux : Option Char → List Char → Option String
  | _, [] => none
  | prev, c :: rest =>
    match ipMatchAt prev (c :: rest) with
    | some s => some s
    | none => ipSearchAux (some c) rest

/-- `IP_RE.search(line)` followed by `m.group(0)`. -/
def IP_RE_search (s : String) : Option String :=
  ipSearchAux none s.toList

def dateMatchAt (cs : List Char) : Option String :=
  match cs with
  | y1 :: y2 :: y3 :: y4 :: '-' :: m1 :: m2 :: '-' :: d1 :: d2 :: _ =>
    if y1.isDigit && y2.isDigit && y3.isDigit && y4.isDigit && m1.isDigit &&
        m2.isDigit && d1.isDigit && d2.isDigit then
      some (String.mk [y1, y2, y3, y4, '-', m1, m2, '-', d1, d2])
    else none
  | _ => none

def dateSearchAux : List Char → Option String
  | [] => none
  | c :: rest =>
    match dateMatchAt (c :: rest) with
    | some s => some s
    | none => dateSearchAux rest

/-- `DATE_DAY_RE.search(line)` followed by `m.group(1)`. -/
def DATE_DAY_RE_search (s : String) : Option String :=
  dateSearchAux s.toList

/-- The per-chunk result dict `worker_entry` puts on the result queue. -/
structure WorkerResult where
  total_lines : Nat
  by_level : PyDict
  ip_counts : PyDict
  errors_by_day : PyDict
deriving DecidableEq

/-- The counters `worker_entry` starts each chunk with: `by_level` is
pre-seeded with the three vocabulary keys at zero. -/
def workerInit : WorkerResult :=
  ⟨0, [("INFO", 0), ("WARNING", 0), ("ERROR", 0)], [], []⟩

/-- The ip-count and errors-by-day part of `worker_entry`'s loop body (the
statements after the level handling). -/
def workerRest (st : WorkerResult) (line : String) : WorkerResult :=
  let st2 :=
    match IP_RE_search line with
    | some ip => { st with ip_counts := dincr st.ip_counts ip }
    | none => st
  if hasErrorWord line then
    match DATE_DAY_RE_search line with
    | some day => { st2 with errors_by_day := dincr st2.errors_by_day day }
    | none => st2
  else st2

/-- One iteration of `worker_entry`'s `for line in chunk` loop: count the
line; an empty line is skipped entirely (`continue`); a level match is
uppercased, any `WARN*` spelling is normalised to `WARNING`, and the count
is incremented only when the key is one of the pre-seeded three — a level
outside the dict would `continue`, skipping the rest of the body. -/
def workerStep (st : WorkerResult) (line : String) : WorkerResult :=
  let st := { st with total_lines := st.total_lines + 1 }
  if line = "" then st
  else
    match LEVEL_RE_search line with
    | some g =>
      let lvl0 := pyUpper g
      let lvl := if pyStartsWith lvl0 "WARN" then "WARNING" else lvl0
      if (dget st.by_level lvl).isSome then
        workerRest { st with by_level := dincr st.by_level lvl } line
      else
        st
    | none => workerRest st line

/-- The summarization `worker_entry` performs on one dequeued chunk. -/
def worker_entry_chunk (chunk : List String) : WorkerResult :=
  chunk.foldl workerStep workerInit

/-! ## processor.worker_loop -/

/-- A value dequeued from the task queue: a `(file_path, chunk_index,
lines)` tuple, or the `None` termination sentinel. -/
inductive WorkerTask where
  | task (file : String) (chunk_index : Nat) (lines : List String)
  | sentinel
deriving DecidableEq

/-- `processor.worker_loop` run against the sequence of values the worker
will dequeue from its task queue: every task is processed with
`Processor.process_chunk` and its outcome enqueued on the result queue (in
this pure embedding `process_chunk` is total, so the defensive except
branch is unreachable); the `None` sentinel exits the loop. The boolean
tells whether the loop terminated by consuming the sentinel — on an
exhausted sequence without a sentinel the worker is still blocked in
`task_q.get()`. -/
def worker_loop (name : String) : List WorkerTask → List ChunkOutcome × Bool
  | [] => ([], false)
  | WorkerTask.sentinel :: _ => ([], true)
  | WorkerTask.task f i ls :: rest =>
    let res := process_chunk name f i ls
    ((worker_loop name rest).1.cons res, (worker_loop name rest).2)

/-! ## config.validate_positive_int and LogAnalyzer.__init__ -/

/-- `config.validate_positive_int`: a ValueError for a value `< 1`,
otherwise the value itself. (The non-int `isinstance` branch lies outside
this integer-valued model.) -/
def validate_positive_int (name : String) (value : Int) : Except String Int :=
  if value < 1 then Except.error (name ++ " debe ser >= 1")
  else Except.ok value

/-- The first statement of `log_utils.chunk_file_lines`: a missing chunk
size takes `config.DEFAULT_LINES_PER_CHUNK` (1000); a given one must pass
`validate_positive_int` before any line is read. -/
def chunk_file_lines_checked (c : Option Int) (ls : List String) :
    Except String (List (Nat × List String)) :=
  match c with
  | none => Except.ok (chunk_file_lines 1000 ls)
  | some v =>
    match validate_positive_int "lines_per_chunk" v with
    | Except.error e => Except.error e
    | Except.ok v => Except.ok (chunk_file_lines v.toNat ls)

/-- `LogAnalyzer.__init__`: stores `max(1, int(lines_per_chunk))` and
`max(1, int(workers))` — clamping, not validating — and raises only when
the log directory is not a directory. Returns the stored pair. -/
def LogAnalyzer_init (lines_per_chunk workers : Int) (log_dir_is_dir : Bool) :
    Except String (Int × Int) :=
  let lpc := max 1 lines_per_chunk
  let w := max 1 workers
  if log_dir_is_dir then Except.ok (lpc, w)
  else Except.error "Directorio Logs no encontrado"

/-! ## parallel_manager.ParallelManager -/

/-- The attributes the `Processor` class body (src/processor.py) defines:
`__init__` (which binds `name`) and the method `process_chunk`.
`worker_loop` is a module-level function of processor.py, not a class
attribute. -/
def processorClassAttrs : List String := ["__init__", "name", "process_chunk"]

/-- The attribute lookup `Processor.worker_loop` evaluated by
`ParallelManager._start_workers` before any process is created:
AttributeError when the class does not define the name. -/
def getattrProcessor (attr : String) : Except String Unit :=
  if attr ∈ processorClassAttrs then Except.ok ()
  else Except.error ("AttributeError: Processor has no attribute " ++ attr)

def ParallelManager_start_workers : Except String Unit :=
  getattrProcessor "worker_loop"

/-- Number of required positional parameters of
`analysis.merge_partial_results`. -/
def merge_partial_results_arity : Nat := 2

/-- The call `analysis.merge_partial_results(self.results)` at the end of
`ParallelManager.run`: one positional argument against a function of two
required parameters is a TypeError; were the arities compatible it would
produce an accumulator from the collected results. -/
def call_merge_with_one_arg (results : List PartialResult) :
    Except String PartialResult :=
  if 1 = merge_partial_results_arity then
    Except.ok (results.foldl merge_partial_results emptyAcc)
  else
    Except.error "TypeError: merge_partial_results missing 1 required positional argument"

/-- `ParallelManager.run`: `_start_workers` first (its attribute lookup
raises before anything else happens); the enqueue/monitor/collect/stop
stages pass the collected results through; finally the one-argument
`merge_partial_results` call. -/
def ParallelManager_run (results : List PartialResult) :
    Except String PartialResult :=
  match ParallelManager_start_workers with
  | Except.error e => Except.error e
  | Except.ok _ => call_merge_with_one_arg results

/-! ## Further merge algebra: sumKey through mergeCounts, merge trees -/

theorem boolEqOfIff {x y : Bool} (h : x = true ↔ y = true) : x = y := by
  cases x <;> cases y <;> simp_all

theorem sumKey_mergeCounts (p : PyDict) (acc : PyDict) (k : String) :
    sumKey (mergeCounts acc p) k = sumKey acc k + sumKey p k := by
  induction p generalizing acc with
  | nil => simp [mergeCounts, sumKey]
  | cons kv rest ih =>
    obtain ⟨k0, c⟩ := kv
    show sumKey (mergeCounts (daddc acc k0 c) rest) k = _
    rw [ih, sumKey_daddc, sumKey_cons]
    by_cases h : k0 = k
    · simp [h]
      omega
    · simp [h, Ne.symm h]

/-- A parenthesisation of binary `merge_partial_results` applications over
some partial results (the "any associativity of grouping" of the claim). -/
inductive MergeTree where
  | leaf (p : PartialResult)
  | node (l r : MergeTree)

def mergeTreeEval : MergeTree → PartialResult
  | MergeTree.leaf p => p
  | MergeTree.node l r => merge_partial_results (mergeTreeEval l) (mergeTreeEval r)

def mergeTreeLeaves : MergeTree → List PartialResult
  | MergeTree.leaf p => [p]
  | MergeTree.node l r => mergeTreeLeaves l ++ mergeTreeLeaves r

theorem mergeTree_lines_total (t : MergeTree) :
    (mergeTreeEval t).lines_total =
      ((mergeTreeLeaves t).map PartialResult.lines_total).sum := by
  induction t with
  | leaf p => simp [mergeTreeEval, mergeTreeLeaves]
  | node l r ihl ihr =>
    show (merge_partial_results (mergeTreeEval l) (mergeTreeEval r)).lines_total = _
    simp only [merge_partial_results, mergeTreeLeaves, List.map_append, List.sum_append]
    rw [← ihl, ← ihr]

theorem mergeTree_sumKey (proj : PartialResult → PyDict)
    (hproj : ∀ a p, proj (merge_partial_results a p) = mergeCounts (proj a) (proj p))
    (t : MergeTree) (k : String) :
    sumKey (proj (mergeTreeEval t)) k =
      ((mergeTreeLeaves t).map (fun p => sumKey (proj p) k)).sum := by
  induction t with
  | leaf p => simp [mergeTreeEval, mergeTreeLeaves]
  | node l r ihl ihr =>
    show sumKey (proj (merge_partial_results (mergeTreeEval l) (mergeTreeEval r))) k = _
    rw [hproj, sumKey_mergeCounts, ihl, ihr]
    simp [mergeTreeLeaves]

theorem mergeTree_isSome (proj : PartialResult → PyDict)
    (hproj : ∀ a p, proj (merge_partial_results a p) = mergeCounts (proj a) (proj p))
    (t : MergeTree) (k : String) :
    ((dget (proj (mergeTreeEval t)) k).isSome = true ↔
      ∃ p ∈ mergeTreeLeaves t, (dget (proj p) k).isSome = true) := by
  induction t with
  | leaf p => simp [mergeTreeEval, mergeTreeLeaves]
  | node l r ihl ihr =>
    show ((dget (proj (merge_partial_results (mergeTreeEval l) (mergeTreeEval r))) k).isSome = true ↔ _)
    rw [hproj, dget_isSome_mergeCounts, ihl, ihr]
    simp only [mergeTreeLeaves, List.mem_append]
    constructor
    · rintro (⟨p, hp, h⟩ | ⟨p, hp, h⟩)
      · exact ⟨p, Or.inl hp, h⟩
      · exact ⟨p, Or.inr hp, h⟩
    · rintro ⟨p, hp | hp, h⟩
      · exact Or.inl ⟨p, hp, h⟩
      · exact Or.inr ⟨p, hp, h⟩

/-! ## Chunk-then-merge composition -/

/-- The composition the pipeline applies to one file's lines: partition into
chunks, summarize every chunk with `analyze_chunk`, fold the partial
results into an accumulator with `merge_partial_results`. -/
def chunk_summarize_merge (c : Nat) (lines : List String) : PartialResult :=
  ((chunk_file_lines c lines).map (fun ic => analyze_chunk ic.2)).foldl
    merge_partial_results emptyAcc

theorem csm_lines_total (c : Nat) (lines : List String) :
    (chunk_summarize_merge c lines).lines_total = lines.length := by
  unfold chunk_summarize_merge
  rw [foldl_merge_lines_total]
  show 0 + _ = _
  rw [Nat.zero_add, List.map_map]
  rw [show (chunk_file_lines c lines).map
      (PartialResult.lines_total ∘ (fun ic => analyze_chunk ic.2)) =
      (chunk_file_lines c lines).map (fun ic => ic.2.length) from
    List.map_congr_left (fun ic _ => by
      simp only [Function.comp]
      exact analyze_chunk_lines_total ic.2)]
  exact sum_chunk_lengths c lines

theorem chunk_file_lines_flatten (c : Nat) (lines : List String) :
    ((chunk_file_lines c lines).map Prod.snd).flatten = lines := by
  unfold chunk_file_lines
  simpa using chunkAux_join c lines [] 0

theorem csm_dgetD (proj : PartialResult → PyDict) (lineKey : String → Option String)
    (hstep : ∀ st line, proj (analyzeStep st line) =
      (lineKey line).elim (proj st) (dincr (proj st)))
    (hproj : ∀ a p, proj (merge_partial_results a p) = mergeCounts (proj a) (proj p))
    (hempty : proj ⟨0, [], [], []⟩ = [])
    (c : Nat) (lines : List String) (k : String) :
    dgetD (proj (chunk_summarize_merge c lines)) k 0 =
      lines.countP (fun l => decide (lineKey l = some k)) := by
  unfold chunk_summarize_merge
  rw [foldl_merge_dgetD proj hproj]
  rw [show proj emptyAcc = [] from hempty]
  show 0 + _ = _
  rw [Nat.zero_add, List.map_map]
  rw [show (chunk_file_lines c lines).map
      ((fun p => sumKey (proj p) k) ∘ (fun ic => analyze_chunk ic.2)) =
      (chunk_file_lines c lines).map
        (fun ic => ic.2.countP (fun l => decide (lineKey l = some k))) from
    List.map_congr_left (fun ic _ => by
      simp only [Function.comp]
      have h := foldl_analyzeStep_sumKey proj lineKey hstep ic.2 ⟨0, [], [], []⟩ k
      rw [hempty] at h
      simpa [analyze_chunk, sumKey] using h)]
  calc ((chunk_file_lines c lines).map
        (fun ic => ic.2.countP (fun l => decide (lineKey l = some k)))).sum
      = (((chunk_file_lines c lines).map Prod.snd).map
          (List.countP (fun l => decide (lineKey l = some k)))).sum := by
        rw [List.map_map]
        rfl
    _ = (((chunk_file_lines c lines).map Prod.snd).flatten).countP
          (fun l => decide (lineKey l = some k)) :=
        (List.countP_flatten _ _).symm
    _ = lines.countP (fun l => decide (lineKey l = some k)) := by
        rw [chunk_file_lines_flatten]

theorem csm_isSome (proj : PartialResult → PyDict) (lineKey : String → Option String)
    (hstep : ∀ st line, proj (analyzeStep st line) =
      (lineKey line).elim (proj st) (dincr (proj st)))
    (hproj : ∀ a p, proj (merge_partial_results a p) = mergeCounts (proj a) (proj p))
    (hempty : proj ⟨0, [], [], []⟩ = [])
    (c : Nat) (lines : List String) (k : String) :
    ((dget (proj (chunk_summarize_merge c lines)) k).isSome = true ↔
      ∃ l ∈ lines, lineKey l = some k) := by
  unfold chunk_summarize_merge
  rw [foldl_merge_isSome proj hproj]
  rw [show proj emptyAcc = [] from hempty]
  constructor
  · rintro (h | ⟨p, hp, hsome⟩)
    · simp [dget] at h
    · obtain ⟨ic, hic, rfl⟩ := List.mem_map.mp hp
      have h := foldl_analyzeStep_isSome proj lineKey hstep ic.2 ⟨0, [], [], []⟩ k
      rw [hempty] at h
      have h2 := h.mp hsome
      rcases h2 with h2 | ⟨l, hl, hkey⟩
      · simp [dget] at h2
      · refine ⟨l, ?_, hkey⟩
        have hmem : ic.2 ∈ (chunk_file_lines c lines).map Prod.snd :=
          List.mem_map_of_mem Prod.snd hic
        have hin : l ∈ ((chunk_file_lines c lines).map Prod.snd).flatten :=
          List.mem_flatten.mpr ⟨ic.2, hmem, hl⟩
        rw [chunk_file_lines_flatten] at hin
        exact hin
  · rintro ⟨l, hl, hkey⟩
    right
    have hin : l ∈ ((chunk_file_lines c lines).map Prod.snd).flatten := by
      rw [chunk_file_lines_flatten]
      exact hl
    obtain ⟨ch, hch, hlch⟩ := List.mem_flatten.mp hin
    obtain ⟨ic, hic, rfl⟩ := List.mem_map.mp hch
    refine ⟨analyze_chunk ic.2,
      List.mem_map_of_mem (fun ic => analyze_chunk ic.2) hic, ?_⟩
    have h := foldl_analyzeStep_isSome proj lineKey hstep ic.2 ⟨0, [], [], []⟩ k
    rw [hempty] at h
    exact h.mpr (Or.inr ⟨l, hlch, hkey⟩)

/-! ## Worker-entry by_level key-set invariance -/

theorem workerRest_by_level (st : WorkerResult) (line : String) :
    (workerRest st line).by_level = st.by_level := by
  unfold workerRest
  cases hip : IP_RE_search line <;>
    by_cases he : hasErrorWord line <;>
      cases hd : DATE_DAY_RE_search line <;>
        simp [he]

theorem workerRest_total_lines (st : WorkerResult) (line : String) :
    (workerRest st line).total_lines = st.total_lines := by
  unfold workerRest
  cases hip : IP_RE_search line <;>
    by_cases he : hasErrorWord line <;>
      cases hd : DATE_DAY_RE_search line <;>
        simp [he]

theorem dget_isSome_dincr_guarded (m : PyDict) (lvl k : String)
    (hin : (dget m lvl).isSome = true) :
    (dget (dincr m lvl) k).isSome = (dget m k).isSome := by
  unfold dincr
  rw [dget_isSome_dset]
  by_cases hk : k = lvl
  · subst hk
    simp [hin]
  · simp [hk]

theorem workerStep_total_lines (st : WorkerResult) (line : String) :
    (workerStep st line).total_lines = st.total_lines + 1 := by
  simp only [workerStep]
  by_cases hempty : line = ""
  · simp [hempty]
  · simp only [hempty, if_false]
    cases hlv : LEVEL_RE_search line
    · simp [workerRest_total_lines]
    · simp only []
      split <;> split <;> simp [workerRest_total_lines]

theorem workerStep_by_level_isSome (st : WorkerResult) (line : String) (k : String) :
    (dget (workerStep st line).by_level k).isSome = (dget st.by_level k).isSome := by
  simp only [workerStep]
  by_cases hempty : line = ""
  · simp [hempty]
  · simp only [hempty, if_false]
    cases hlv : LEVEL_RE_search line
    · simp [workerRest_by_level]
    · simp only []
      split <;> split <;>
        first
        | rfl
        | (next hin =>
            rw [workerRest_by_level]
            exact dget_isSome_dincr_guarded _ _ _ hin)

theorem worker_entry_by_level_isSome (chunk : List String) (k : String) :
    (dget (worker_entry_chunk chunk).by_level k).isSome =
      (dget workerInit.by_level k).isSome := by
  unfold worker_entry_chunk
  suffices h : ∀ st : WorkerResult,
      (dget (chunk.foldl workerStep st).by_level k).isSome = (dget st.by_level k).isSome by
    exact h workerInit
  induction chunk with
  | nil => intro st; rfl
  | cons l ls ih =>
    intro st
    rw [List.foldl_cons, ih, workerStep_by_level_isSome]

theorem worker_entry_total_lines (chunk : List String) :
    (worker_entry_chunk chunk).total_lines = chunk.length := by
  unfold worker_entry_chunk
  suffices h : ∀ st : WorkerResult,
      (chunk.foldl workerStep st).total_lines = st.total_lines + chunk.length by
    simpa [workerInit] using h workerInit
  induction chunk with
  | nil => intro st; rfl
  | cons l ls ih =>
    intro st
    rw [List.foldl_cons, ih, workerStep_total_lines, List.length_cons]
    omega

/-! ## Per-line key functions on unparseable lines -/

theorem lineLevel_of_parse_none (l : String) (h : parse_log_line l = none) :
    lineLevel l = none := by
  unfold lineLevel
  rw [h]

theorem lineIp_of_parse_none (l : String) (h : parse_log_line l = none) :
    lineIp l = none := by
  unfold lineIp
  rw [h]

theorem lineErrKey_of_parse_none (l : String) (h : parse_log_line l = none) :
    lineErrKey l = none := by
  unfold lineErrKey
  rw [h]

theorem lineErrKey_isSome_eq (l : String) :
    (lineErrKey l).isSome =
      decide ((parse_log_line l).map (fun q => pyUpper q.level) = some "ERROR") := by
  unfold lineErrKey
  cases hp : parse_log_line l with
  | none => simp
  | some p =>
    by_cases h : pyUpper p.level = "ERROR"
    · simp [h]
    · simp [h]

theorem analyze_chunk_all_unparsed (lines : List String)
    (h : ∀ l ∈ lines, parse_log_line l = none) :
    (analyze_chunk lines).by_level = [] ∧ (analyze_chunk lines).top_ips = [] ∧
      (analyze_chunk lines).errors_by_hour = [] := by
  unfold analyze_chunk
  suffices hs : ∀ st : PartialResult, (∀ l ∈ lines, parse_log_line l = none) →
      (lines.foldl analyzeStep st).by_level = st.by_level ∧
      (lines.foldl analyzeStep st).top_ips = st.top_ips ∧
      (lines.foldl analyzeStep st).errors_by_hour = st.errors_by_hour from
    hs ⟨0, [], [], []⟩ h
  clear h
  induction lines with
  | nil => intro st _; exact ⟨rfl, rfl, rfl⟩
  | cons l ls ih =>
    intro st hall
    have hl : parse_log_line l = none := hall l (List.mem_cons_self l ls)
    rw [List.foldl_cons]
    obtain ⟨h1, h2, h3⟩ := ih (analyzeStep st l)
      (fun x hx => hall x (List.mem_cons_of_mem l hx))
    rw [h1, h2, h3, analyzeStep_by_level, analyzeStep_top_ips, analyzeStep_errors_by_hour,
      lineLevel_of_parse_none l hl, lineIp_of_parse_none l hl, lineErrKey_of_parse_none l hl]
    exact ⟨rfl, rfl, rfl⟩

theorem countP_filter_parse (ls : List String) (lineKey : String → Option String)
    (hk : ∀ l, parse_log_line l = none → lineKey l = none) (k : String) :
    (ls.filter (fun l => (parse_log_line l).isSome)).countP
        (fun l => decide (lineKey l = some k)) =
      ls.countP (fun l => decide (lineKey l = some k)) := by
  rw [List.countP_filter]
  apply List.countP_congr
  intro a _
  constructor
  · intro h
    simp only [Bool.and_eq_true] at h
    exact h.1
  · intro h
    simp only [Bool.and_eq_true]
    refine ⟨h, ?_⟩
    cases hp : parse_log_line a with
    | none =>
      rw [decide_eq_true_eq] at h
      rw [hk a hp] at h
      cases h
    | some p => simp

theorem exists_filter_parse (ls : List String) (lineKey : String → Option String)
    (hk : ∀ l, parse_log_line l = none → lineKey l = none) (k : String) :
    ((∃ l ∈ ls.filter (fun l => (parse_log_line l).isSome), lineKey l = some k) ↔
      (∃ l ∈ ls, lineKey l = some k)) := by
  constructor
  · rintro ⟨l, hl, hkey⟩
    exact ⟨l, (List.mem_filter.mp hl).1, hkey⟩
  · rintro ⟨l, hl, hkey⟩
    refine ⟨l, List.mem_filter.mpr ⟨hl, ?_⟩, hkey⟩
    cases hp : parse_log_line l with
    | none =>
      rw [hk l hp] at hkey
      cases hkey
    | some p => simp

/-! ## Claims -/

/-- C1: Conservation — for every directory of log files and every positive
chunk size, the accumulator returned by a full sequential run (chunking
every matched file, summarizing every chunk, merging every partial result)
has `lines_total` equal to the exact total number of lines across all
ingested files, empty lines and blank files included. -/
theorem C1_conservation (c : Nat) (hc : 0 < c)
    (dir : List (String × List String)) (patterns : List (String → Bool)) :
    (run_sequential_from_dir c dir patterns).lines_total =
      ((list_log_files (dir.map Prod.fst) patterns).map
        (fun name => (fileContents dir name).length)).sum :=
  run_sequential_lines_total c dir patterns

theorem C1_conservation_witness :
    0 < 2 ∧
    (run_sequential_from_dir 2 [("b.log", ["x", "", "y"]), ("a.log", [])]
        [fun n => n.endsWith ".log"]).lines_total =
      ((list_log_files ([("b.log", ["x", "", "y"]), ("a.log", [])].map Prod.fst)
          [fun n => n.endsWith ".log"]).map
        (fun name =>
          (fileContents [("b.log", ["x", "", "y"]), ("a.log", [])] name).length)).sum :=
  ⟨by decide, C1_conservation 2 (by decide) [("b.log", ["x", "", "y"]), ("a.log", [])]
    [fun n => n.endsWith ".log"]⟩

/-- C8: Worker sentinel shutdown — a worker's loop reaches its terminated
state only by dequeuing the termination sentinel, and for every task
sequence of k chunk tasks followed by one sentinel, the worker processes
each of the k chunks exactly once, enqueues exactly one result per chunk,
and then terminates. -/
theorem C8_worker_sentinel (name : String) (ts : List WorkerTask)
    (hterm : (worker_loop name ts).2 = true)
    (ws : List (String × Nat × List String)) :
    WorkerTask.sentinel ∈ ts ∧
    worker_loop name
        (ws.map (fun w => WorkerTask.task w.1 w.2.1 w.2.2) ++ [WorkerTask.sentinel]) =
      (ws.map (fun w => process_chunk name w.1 w.2.1 w.2.2), true) := by
  constructor
  · revert hterm
    induction ts with
    | nil =>
      intro hterm
      simp [worker_loop] at hterm
    | cons t rest ih =>
      intro hterm
      cases t with
      | sentinel => exact List.mem_cons_self _ _
      | task f i ls => exact List.mem_cons_of_mem _ (ih hterm)
  · induction ws with
    | nil => rfl
    | cons w rest ih =>
      simp only [List.map_cons, List.cons_append]
      show ((worker_loop name
          (rest.map (fun w => WorkerTask.task w.1 w.2.1 w.2.2) ++
            [WorkerTask.sentinel])).1.cons
            (process_chunk name w.1 w.2.1 w.2.2),
        (worker_loop name (rest.map (fun w => WorkerTask.task w.1 w.2.1 w.2.2) ++
          [WorkerTask.sentinel])).2) = _
      rw [ih]

theorem C8_worker_sentinel_witness :
    (worker_loop "worker-1" [WorkerTask.sentinel]).2 = true ∧
    (WorkerTask.sentinel ∈ [WorkerTask.sentinel] ∧
      worker_loop "worker-1"
          ([("f.log", 0, ["x"])].map (fun w => WorkerTask.task w.1 w.2.1 w.2.2) ++
            [WorkerTask.sentinel]) =
        ([("f.log", 0, ["x"])].map
          (fun w => process_chunk "worker-1" w.1 w.2.1 w.2.2), true)) :=
  ⟨rfl, C8_worker_sentinel "worker-1" [WorkerTask.sentinel] rfl [("f.log", 0, ["x"])]⟩

/-- C9 counterexample: `LogAnalyzer.__init__` accepts a non-positive chunk
size (0) and a non-positive worker count (-3): construction succeeds with
the values silently clamped to 1, instead of failing with a hard error
before pipeline work. -/
theorem C9_counterexample :
    (0 : Int) < 1 ∧ (-3 : Int) < 1 ∧
    LogAnalyzer_init 0 (-3) true = Except.ok (1, 1) := by
  refine ⟨by decide, by decide, ?_⟩
  rfl

/-- C9 amended: a non-positive chunk size given to the log_utils pipeline
fails fast — `validate_positive_int` raises, so `chunk_file_lines` errors
before any line is grouped; `LogAnalyzer.__init__` however clamps
non-positive chunk size and worker count to 1 with `max(1, int(x))` and
proceeds without error. -/
theorem C9_amended (v w : Int) (hv : v < 1) (hw : w < 1) (ls : List String) :
    validate_positive_int "lines_per_chunk" v =
      Except.error "lines_per_chunk debe ser >= 1" ∧
    chunk_file_lines_checked (some v) ls =
      Except.error "lines_per_chunk debe ser >= 1" ∧
    LogAnalyzer_init v w true = Except.ok (1, 1) := by
  have h1 : validate_positive_int "lines_per_chunk" v =
      Except.error "lines_per_chunk debe ser >= 1" := by
    unfold validate_positive_int
    rw [if_pos hv]
    rfl
  refine ⟨h1, ?_, ?_⟩
  · show (match validate_positive_int "lines_per_chunk" v with
      | Except.error e => Except.error e
      | Except.ok v => Except.ok (chunk_file_lines v.toNat ls)) =
      Except.error "lines_per_chunk debe ser >= 1"
    rw [h1]
  · unfold LogAnalyzer_init
    rw [if_pos rfl, max_eq_left (le_of_lt hv), max_eq_left (le_of_lt hw)]

theorem C9_amended_witness :
    (0 : Int) < 1 ∧ (-3 : Int) < 1 ∧
    (validate_positive_int "lines_per_chunk" 0 =
        Except.error "lines_per_chunk debe ser >= 1" ∧
      chunk_file_lines_checked (some 0) ["x"] =
        Except.error "lines_per_chunk debe ser >= 1" ∧
      LogAnalyzer_init 0 (-3) true = Except.ok (1, 1)) :=
  ⟨by decide, by decide, C9_amended 0 (-3) (by decide) (by decide) ["x"]⟩

/-- C10: `ParallelManager.run` raises for every configuration and never
returns a merged accumulator — `_start_workers` evaluates
`Processor.worker_loop`, which the `Processor` class does not define
(`worker_loop` is a module-level function of processor.py); and even past
worker startup, `run` calls `analysis.merge_partial_results` with a single
argument although the function requires two. -/
theorem C10_run_raises (results : List PartialResult) :
    ParallelManager_run results =
      Except.error "AttributeError: Processor has no attribute worker_loop" ∧
    (∀ r, ParallelManager_run results ≠ Except.ok r) ∧
    (∀ r, call_merge_with_one_arg results ≠ Except.ok r) := by
  have h1 : ParallelManager_start_workers =
      Except.error "AttributeError: Processor has no attribute worker_loop" := by
    rfl
  refine ⟨?_, ?_, ?_⟩
  · unfold ParallelManager_run
    rw [h1]
  · intro r
    unfold ParallelManager_run
    rw [h1]
    simp
  · intro r
    unfold call_merge_with_one_arg merge_partial_results_arity
    simp

/-- C6: Producer chunking contract — for every file and positive chunk size
`c`, the producer yields chunks with indices ascending consecutively from
0; the concatenation of the yielded chunks is the file's line sequence; an
empty file yields no chunks; every chunk holds exactly `c` lines except a
final non-empty chunk of `len % c` lines when `c` does not divide the line
count; and files are processed in lexicographically sorted name order (the
sorted listing is a permutation of the glob matches). -/
theorem C6_producer_chunking (c : Nat) (hc : 0 < c) (ls : List String)
    (names : List String) (patterns : List (String → Bool)) :
    ((chunk_file_lines c ls).map Prod.fst =
      List.range (chunk_file_lines c ls).length) ∧
    (((chunk_file_lines c ls).map Prod.snd).flatten = ls) ∧
    (ls = [] → chunk_file_lines c ls = []) ∧
    (ls ≠ [] →
      ((chunk_file_lines c ls).map Prod.snd).map List.length =
        List.replicate ((chunk_file_lines c ls).length - 1) c ++
          [if ls.length % c = 0 then c else ls.length % c]) ∧
    (list_log_files names patterns).Sorted (· ≤ ·) ∧
    List.Perm (list_log_files names patterns)
      ((patterns.map (fun pat => names.filter pat)).flatten) := by
  have heq : (chunk_file_lines c ls).map Prod.snd = chunksTake c ls.length ls := by
    unfold chunk_file_lines
    have h := chunkAux_snd_eq_chunksTake c hc ls [] 0 (by simpa using hc)
    simpa using h
  refine ⟨?_, chunk_file_lines_flatten c ls, ?_, ?_, sortStrings_sorted _, sortStrings_perm _⟩
  · rw [List.range_eq_range']
    exact chunkAux_indices c ls [] 0
  · intro h
    subst h
    rfl
  · intro hne
    rw [heq]
    have hlen : (chunksTake c ls.length ls).length = (chunk_file_lines c ls).length := by
      rw [← heq, List.length_map]
    rw [← hlen]
    exact chunksTake_lengths_eq c hc ls.length ls rfl hne

theorem C6_producer_chunking_witness :
    0 < 2 ∧
    (((chunk_file_lines 2 ["a", "b", "c"]).map Prod.fst =
        List.range (chunk_file_lines 2 ["a", "b", "c"]).length) ∧
      (((chunk_file_lines 2 ["a", "b", "c"]).map Prod.snd).flatten = ["a", "b", "c"]) ∧
      ((["a", "b", "c"] : List String) = [] → chunk_file_lines 2 ["a", "b", "c"] = []) ∧
      ((["a", "b", "c"] : List String) ≠ [] →
        ((chunk_file_lines 2 ["a", "b", "c"]).map Prod.snd).map List.length =
          List.replicate ((chunk_file_lines 2 ["a", "b", "c"]).length - 1) 2 ++
            [if (["a", "b", "c"] : List String).length % 2 = 0 then 2
              else (["a", "b", "c"] : List String).length % 2]) ∧
      (list_log_files ["b", "a"] [fun _ => true]).Sorted (· ≤ ·) ∧
      List.Perm (list_log_files ["b", "a"] [fun _ => true])
        (([fun _ => true].map (fun pat => ["b", "a"].filter pat)).flatten)) :=
  ⟨by decide, C6_producer_chunking 2 (by decide) ["a", "b", "c"] ["b", "a"] [fun _ => true]⟩

/-- C7: Parser tolerance of the summarizer — `analyze_chunk` (a total
function in this embedding: it never raises) returns `lines_total` equal to
the length of the sequence for every input; a line whose per-line parse
fails contributes only to `lines_total` (each count map equals the map
computed from the parseable lines alone); in particular a chunk containing
only malformed lines yields `lines_total = len(lines)` with `by_level`,
`top_ips` and `errors_by_hour` all empty. -/
theorem C7_parser_tolerance (lines : List String)
    (hbad : ∀ l ∈ lines, parse_log_line l = none) :
    (∀ ls : List String, (analyze_chunk ls).lines_total = ls.length) ∧
    (∀ (ls : List String) (k : String),
      dget (analyze_chunk ls).by_level k =
        dget (analyze_chunk (ls.filter (fun l => (parse_log_line l).isSome))).by_level k ∧
      dget (analyze_chunk ls).top_ips k =
        dget (analyze_chunk (ls.filter (fun l => (parse_log_line l).isSome))).top_ips k ∧
      dget (analyze_chunk ls).errors_by_hour k =
        dget (analyze_chunk
          (ls.filter (fun l => (parse_log_line l).isSome))).errors_by_hour k) ∧
    ((analyze_chunk lines).lines_total = lines.length ∧
      (analyze_chunk lines).by_level = [] ∧
      (analyze_chunk lines).top_ips = [] ∧
      (analyze_chunk lines).errors_by_hour = []) := by
  have hmap : ∀ (lineKey : String → Option String),
      (∀ l, parse_log_line l = none → lineKey l = none) →
      ∀ (proj : PartialResult → PyDict),
      (∀ ls k, dgetD (proj (analyze_chunk ls)) k 0 =
        ls.countP (fun l => decide (lineKey l = some k))) →
      (∀ ls k, ((dget (proj (analyze_chunk ls)) k).isSome = true ↔
        ∃ l ∈ ls, lineKey l = some k)) →
      ∀ (ls : List String) (k : String),
      dget (proj (analyze_chunk ls)) k =
        dget (proj (analyze_chunk (ls.filter (fun l => (parse_log_line l).isSome)))) k := by
    intro lineKey hk proj hdg hso ls k
    apply dget_ext
    · apply boolEqOfIff
      rw [hso, hso]
      exact (exists_filter_parse ls lineKey hk k).symm
    · rw [hdg, hdg]
      exact (countP_filter_parse ls lineKey hk k).symm
  obtain ⟨hbl, hti, heh⟩ := analyze_chunk_all_unparsed lines hbad
  refine ⟨fun ls => analyze_chunk_lines_total ls, fun ls k => ⟨?_, ?_, ?_⟩,
    analyze_chunk_lines_total lines, hbl, hti, heh⟩
  · exact hmap lineLevel lineLevel_of_parse_none (fun st => st.by_level)
      analyze_chunk_by_level_dgetD analyze_chunk_by_level_isSome ls k
  · exact hmap lineIp lineIp_of_parse_none (fun st => st.top_ips)
      analyze_chunk_top_ips_dgetD analyze_chunk_top_ips_isSome ls k
  · exact hmap lineErrKey lineErrKey_of_parse_none (fun st => st.errors_by_hour)
      analyze_chunk_errors_dgetD analyze_chunk_errors_isSome ls k

theorem C7_parser_tolerance_witness :
    (∀ l ∈ (["garbage", ""] : List String), parse_log_line l = none) ∧
    ((∀ ls : List String, (analyze_chunk ls).lines_total = ls.length) ∧
      (∀ (ls : List String) (k : String),
        dget (analyze_chunk ls).by_level k =
          dget (analyze_chunk (ls.filter (fun l => (parse_log_line l).isSome))).by_level k ∧
        dget (analyze_chunk ls).top_ips k =
          dget (analyze_chunk (ls.filter (fun l => (parse_log_line l).isSome))).top_ips k ∧
        dget (analyze_chunk ls).errors_by_hour k =
          dget (analyze_chunk
            (ls.filter (fun l => (parse_log_line l).isSome))).errors_by_hour k) ∧
      ((analyze_chunk ["garbage", ""]).lines_total = (["garbage", ""] : List String).length ∧
        (analyze_chunk ["garbage", ""]).by_level = [] ∧
        (analyze_chunk ["garbage", ""]).top_ips = [] ∧
        (analyze_chunk ["garbage", ""]).errors_by_hour = [])) :=
  ⟨by decide, C7_parser_tolerance ["garbage", ""] (by decide)⟩

/-- C5: Chunk-size independence — for a fixed sequence of lines and any two
positive chunk sizes, partitioning into chunks, summarizing each chunk and
merging the partial results yields the same accumulator (equal
`lines_total`, and equal Python-dict lookups at every key of `by_level`,
`top_ips` and `errors_by_hour`): chunk boundaries affect no count. -/
theorem C5_chunk_size_independence (lines : List String) (c1 c2 : Nat)
    (h1 : 0 < c1) (h2 : 0 < c2) :
    (chunk_summarize_merge c1 lines).lines_total =
      (chunk_summarize_merge c2 lines).lines_total ∧
    (∀ k, dget (chunk_summarize_merge c1 lines).by_level k =
      dget (chunk_summarize_merge c2 lines).by_level k) ∧
    (∀ k, dget (chunk_summarize_merge c1 lines).top_ips k =
      dget (chunk_summarize_merge c2 lines).top_ips k) ∧
    (∀ k, dget (chunk_summarize_merge c1 lines).errors_by_hour k =
      dget (chunk_summarize_merge c2 lines).errors_by_hour k) := by
  have hgen : ∀ (proj : PartialResult → PyDict) (lineKey : String → Option String),
      (∀ st line, proj (analyzeStep st line) =
        (lineKey line).elim (proj st) (dincr (proj st))) →
      (∀ a p, proj (merge_partial_results a p) = mergeCounts (proj a) (proj p)) →
      proj ⟨0, [], [], []⟩ = [] →
      ∀ k, dget (proj (chunk_summarize_merge c1 lines)) k =
        dget (proj (chunk_summarize_merge c2 lines)) k := by
    intro proj lineKey hstep hproj hempty k
    apply dget_ext
    · apply boolEqOfIff
      rw [csm_isSome proj lineKey hstep hproj hempty c1 lines k,
        csm_isSome proj lineKey hstep hproj hempty c2 lines k]
    · rw [csm_dgetD proj lineKey hstep hproj hempty c1 lines k,
        csm_dgetD proj lineKey hstep hproj hempty c2 lines k]
  refine ⟨by rw [csm_lines_total, csm_lines_total], ?_, ?_, ?_⟩
  · exact hgen (fun st => st.by_level) lineLevel analyzeStep_by_level merge_by_level rfl
  · exact hgen (fun st => st.top_ips) lineIp analyzeStep_top_ips merge_top_ips rfl
  · exact hgen (fun st => st.errors_by_hour) lineErrKey analyzeStep_errors_by_hour
      merge_errors_by_hour rfl

theorem C5_chunk_size_independence_witness :
    0 < 2 ∧ 0 < 3 ∧
    ((chunk_summarize_merge 2 ["2025-10-08 09:00:00,000 [INFO] 1.2.3.4 m", "x", "y"]).lines_total =
        (chunk_summarize_merge 3 ["2025-10-08 09:00:00,000 [INFO] 1.2.3.4 m", "x", "y"]).lines_total ∧
      (∀ k, dget (chunk_summarize_merge 2
          ["2025-10-08 09:00:00,000 [INFO] 1.2.3.4 m", "x", "y"]).by_level k =
        dget (chunk_summarize_merge 3
          ["2025-10-08 09:00:00,000 [INFO] 1.2.3.4 m", "x", "y"]).by_level k) ∧
      (∀ k, dget (chunk_summarize_merge 2
          ["2025-10-08 09:00:00,000 [INFO] 1.2.3.4 m", "x", "y"]).top_ips k =
        dget (chunk_summarize_merge 3
          ["2025-10-08 09:00:00,000 [INFO] 1.2.3.4 m", "x", "y"]).top_ips k) ∧
      (∀ k, dget (chunk_summarize_merge 2
          ["2025-10-08 09:00:00,000 [INFO] 1.2.3.4 m", "x", "y"]).errors_by_hour k =
        dget (chunk_summarize_merge 3
          ["2025-10-08 09:00:00,000 [INFO] 1.2.3.4 m", "x", "y"]).errors_by_hour k)) :=
  ⟨by decide, by decide, C5_chunk_size_independence
    ["2025-10-08 09:00:00,000 [INFO] 1.2.3.4 m", "x", "y"] 2 3 (by decide) (by decide)⟩

/-- C4 counterexample: in the log_Analyzer.py summarizer (`worker_entry`),
an ERROR-level line without a parseable date is counted in `by_level` but
in no time bucket: the errors-by-day map stays empty, so the sum of its
values (0) differs from the number of ERROR lines (1) — the event is
dropped rather than counted under a fallback key, refuting the claim for
this summarizer. -/
theorem C4_counterexample :
    dgetD (worker_entry_chunk ["a [ERROR] b boom"]).by_level "ERROR" 0 = 1 ∧
    (worker_entry_chunk ["a [ERROR] b boom"]).errors_by_day = [] ∧
    dsum (worker_entry_chunk ["a [ERROR] b boom"]).errors_by_day = 0 := by
  refine ⟨?_, ?_, ?_⟩ <;> rfl

/-- C4 amended (true of analysis.analyze_chunk, the summarizer of the
processor pipeline; worker_entry of log_Analyzer.py violates it): a time
bucket is incremented exactly for lines whose normalized level is ERROR —
each bucket's count is the number of lines mapping to it, the sum of all
bucket values equals the total number of ERROR-level lines, and an ERROR
line whose timestamp fails to parse is counted under the literal "unknown"
bucket rather than dropped. -/
theorem C4_error_bucketing (lines : List String) (line : String)
    (parsed : ParsedLine) (hp : parse_log_line line = some parsed)
    (herr : pyUpper parsed.level = "ERROR")
    (hts : safe_parse_datetime parsed.datetime = none) :
    (dsum (analyze_chunk lines).errors_by_hour =
      lines.countP (fun l =>
        decide ((parse_log_line l).map (fun q => pyUpper q.level) = some "ERROR"))) ∧
    (∀ k, dgetD (analyze_chunk lines).errors_by_hour k 0 =
      lines.countP (fun l => decide (lineErrKey l = some k))) ∧
    lineErrKey line = some "unknown" ∧
    dgetD (analyze_chunk [line]).errors_by_hour "unknown" 0 = 1 := by
  have hkey : lineErrKey line = some "unknown" := by
    unfold lineErrKey
    rw [hp]
    simp [herr, hts]
  refine ⟨?_, fun k => analyze_chunk_errors_dgetD lines k, hkey, ?_⟩
  · rw [analyze_chunk_errors_dsum]
    apply List.countP_congr
    intro a _
    rw [lineErrKey_isSome_eq]
  · rw [analyze_chunk_errors_dgetD]
    simp [List.countP_cons, hkey]

theorem C4_error_bucketing_witness :
    parse_log_line "baddate 00:00:00 [ERROR] 1.2.3.4 boom" =
      some ⟨"baddate 00:00:00", "ERROR", "1.2.3.4", "boom"⟩ ∧
    pyUpper (ParsedLine.mk "baddate 00:00:00" "ERROR" "1.2.3.4" "boom").level = "ERROR" ∧
    safe_parse_datetime
      (ParsedLine.mk "baddate 00:00:00" "ERROR" "1.2.3.4" "boom").datetime = none ∧
    ((dsum (analyze_chunk ["baddate 00:00:00 [ERROR] 1.2.3.4 boom", "zz"]).errors_by_hour =
        (["baddate 00:00:00 [ERROR] 1.2.3.4 boom", "zz"] : List String).countP (fun l =>
          decide ((parse_log_line l).map (fun q => pyUpper q.level) = some "ERROR"))) ∧
      (∀ k, dgetD (analyze_chunk
          ["baddate 00:00:00 [ERROR] 1.2.3.4 boom", "zz"]).errors_by_hour k 0 =
        (["baddate 00:00:00 [ERROR] 1.2.3.4 boom", "zz"] : List String).countP
          (fun l => decide (lineErrKey l = some k))) ∧
      lineErrKey "baddate 00:00:00 [ERROR] 1.2.3.4 boom" = some "unknown" ∧
      dgetD (analyze_chunk
        ["baddate 00:00:00 [ERROR] 1.2.3.4 boom"]).errors_by_hour "unknown" 0 = 1) :=
  ⟨by decide, by decide, by decide,
    C4_error_bucketing ["baddate 00:00:00 [ERROR] 1.2.3.4 boom", "zz"]
      "baddate 00:00:00 [ERROR] 1.2.3.4 boom"
      ⟨"baddate 00:00:00", "ERROR", "1.2.3.4", "boom"⟩ (by decide) (by decide) (by decide)⟩

theorem mergeTree_dgetD (proj : PartialResult → PyDict)
    (hproj : ∀ a p, proj (merge_partial_results a p) = mergeCounts (proj a) (proj p))
    (t : MergeTree) (k : String)
    (hwfl : ∀ p ∈ mergeTreeLeaves t, DictWF (proj p)) :
    dgetD (proj (mergeTreeEval t)) k 0 =
      ((mergeTreeLeaves t).map (fun p => dgetD (proj p) k 0)).sum := by
  induction t with
  | leaf p => simp [mergeTreeEval, mergeTreeLeaves]
  | node l r ihl ihr =>
    show dgetD (proj (merge_partial_results (mergeTreeEval l) (mergeTreeEval r))) k 0 = _
    rw [hproj, dgetD_mergeCounts]
    rw [ihl (fun p hp => hwfl p (by simp [mergeTreeLeaves, hp]))]
    rw [mergeTree_sumKey proj hproj r k]
    rw [show ((mergeTreeLeaves r).map (fun p => sumKey (proj p) k)).sum =
        ((mergeTreeLeaves r).map (fun p => dgetD (proj p) k 0)).sum from
      congrArg List.sum (List.map_congr_left (fun p hp =>
        sumKey_eq_dgetD (proj p) k (hwfl p (by simp [mergeTreeLeaves, hp]))))]
    simp [mergeTreeLeaves]

/-- The §8 scenario: 12 lines — ten INFO, one warning spelled "WARN", one
ERROR at `2025-10-08 09:00:00,000 [ERROR] 10.0.0.1 boom`. -/
def scenario12 : List String :=
  List.replicate 10 "2025-10-08 09:00:00,000 [INFO] 10.0.0.1 ok" ++
    ["2025-10-08 09:00:00,000 [WARN] 10.0.0.1 watch",
     "2025-10-08 09:00:00,000 [ERROR] 10.0.0.1 boom"]

/-- C3 counterexample: the analysis.py summarizer does not normalize level
spellings — on the 12-line scenario `analyze_chunk` counts the "WARN"
spelling under its own key: `by_level` is `{INFO:10, WARN:1, ERROR:1}`,
which holds a key outside {INFO, WARNING, ERROR} and no WARNING key,
refuting the claim for this summarizer. -/
theorem C3_counterexample :
    (analyze_chunk scenario12).by_level = [("INFO", 10), ("WARN", 1), ("ERROR", 1)] ∧
    dget (analyze_chunk scenario12).by_level "WARNING" = none ∧
    dget (analyze_chunk scenario12).by_level "WARN" = some 1 := by
  refine ⟨?_, ?_, ?_⟩ <;> rfl

/-- C3 amended (true of log_Analyzer.py's `worker_entry`; analysis.py's
`analyze_chunk` violates it, see the counterexample): the worker summarizer
normalizes levels to the fixed vocabulary {INFO, WARNING, ERROR} — its
`by_level` never holds a key outside the vocabulary, a "WARN" spelling is
counted under WARNING, and the 12-line scenario yields
`by_level = {INFO:10, WARNING:1, ERROR:1}`. -/
theorem C3_level_normalization (chunk : List String) (k : String)
    (h1 : k ≠ "INFO") (h2 : k ≠ "WARNING") (h3 : k ≠ "ERROR") :
    dget (worker_entry_chunk chunk).by_level k = none ∧
    (worker_entry_chunk scenario12).by_level =
      [("INFO", 10), ("WARNING", 1), ("ERROR", 1)] := by
  constructor
  · have h := worker_entry_by_level_isSome chunk k
    have hz : (dget workerInit.by_level k).isSome = false := by
      simp [workerInit, dget, Ne.symm h1, Ne.symm h2, Ne.symm h3]
    rw [hz] at h
    cases hc : dget (worker_entry_chunk chunk).by_level k with
    | none => rfl
    | some v =>
      rw [hc] at h
      simp at h
  · rfl

theorem C3_level_normalization_witness :
    ("DEBUG" : String) ≠ "INFO" ∧ ("DEBUG" : String) ≠ "WARNING" ∧
    ("DEBUG" : String) ≠ "ERROR" ∧
    (dget (worker_entry_chunk ["x [DEBUG] y z"]).by_level "DEBUG" = none ∧
      (worker_entry_chunk scenario12).by_level =
        [("INFO", 10), ("WARNING", 1), ("ERROR", 1)]) :=
  ⟨by decide, by decide, by decide,
    C3_level_normalization ["x [DEBUG] y z"] "DEBUG" (by decide) (by decide) (by decide)⟩

/-- C2: Merge order-independence — folding `merge_partial_results` over any
permutation of a finite collection of PartialResults (whose maps are
genuine Python dicts: no duplicate keys) yields an accumulator with
identical `lines_total` and identical per-key lookups in `by_level`,
`top_ips` and `errors_by_hour`; each key's accumulated count equals the sum
of that key's counts across all merged partials; and any parenthesisation
of binary merges (a MergeTree) over a permutation of the same partials
yields the same `lines_total` and the same per-key counts as the fold. -/
theorem C2_merge_order_independence (ps qs : List PartialResult)
    (hpq : List.Perm ps qs)
    (hwf : ∀ p ∈ ps, DictWF p.by_level ∧ DictWF p.top_ips ∧ DictWF p.errors_by_hour) :
    ((ps.foldl merge_partial_results emptyAcc).lines_total =
      (qs.foldl merge_partial_results emptyAcc).lines_total) ∧
    (∀ k, dget (ps.foldl merge_partial_results emptyAcc).by_level k =
      dget (qs.foldl merge_partial_results emptyAcc).by_level k) ∧
    (∀ k, dget (ps.foldl merge_partial_results emptyAcc).top_ips k =
      dget (qs.foldl merge_partial_results emptyAcc).top_ips k) ∧
    (∀ k, dget (ps.foldl merge_partial_results emptyAcc).errors_by_hour k =
      dget (qs.foldl merge_partial_results emptyAcc).errors_by_hour k) ∧
    (∀ k, dgetD (ps.foldl merge_partial_results emptyAcc).by_level k 0 =
      (ps.map (fun p => dgetD p.by_level k 0)).sum) ∧
    (∀ k, dgetD (ps.foldl merge_partial_results emptyAcc).top_ips k 0 =
      (ps.map (fun p => dgetD p.top_ips k 0)).sum) ∧
    (∀ k, dgetD (ps.foldl merge_partial_results emptyAcc).errors_by_hour k 0 =
      (ps.map (fun p => dgetD p.errors_by_hour k 0)).sum) ∧
    (∀ t : MergeTree, List.Perm (mergeTreeLeaves t) ps →
      ((mergeTreeEval t).lines_total =
        (ps.foldl merge_partial_results emptyAcc).lines_total ∧
      (∀ k, dgetD (mergeTreeEval t).by_level k 0 =
        dgetD (ps.foldl merge_partial_results emptyAcc).by_level k 0) ∧
      (∀ k, dgetD (mergeTreeEval t).top_ips k 0 =
        dgetD (ps.foldl merge_partial_results emptyAcc).top_ips k 0) ∧
      (∀ k, dgetD (mergeTreeEval t).errors_by_hour k 0 =
        dgetD (ps.foldl merge_partial_results emptyAcc).errors_by_hour k 0))) := by
  have key : ∀ (proj : PartialResult → PyDict),
      (∀ a p, proj (merge_partial_results a p) = mergeCounts (proj a) (proj p)) →
      proj emptyAcc = [] →
      (∀ p ∈ ps, DictWF (proj p)) →
      (∀ k, dget (proj (ps.foldl merge_partial_results emptyAcc)) k =
          dget (proj (qs.foldl merge_partial_results emptyAcc)) k) ∧
      (∀ k, dgetD (proj (ps.foldl merge_partial_results emptyAcc)) k 0 =
          (ps.map (fun p => dgetD (proj p) k 0)).sum) ∧
      (∀ t : MergeTree, List.Perm (mergeTreeLeaves t) ps → ∀ k,
          dgetD (proj (mergeTreeEval t)) k 0 =
            dgetD (proj (ps.foldl merge_partial_results emptyAcc)) k 0) := by
    intro proj hproj hempty hwfp
    have hfold : ∀ (rs : List PartialResult) (k : String),
        dgetD (proj (rs.foldl merge_partial_results emptyAcc)) k 0 =
          (rs.map (fun p => sumKey (proj p) k)).sum := by
      intro rs k
      rw [foldl_merge_dgetD proj hproj, hempty]
      simp [dgetD, dget]
    have hsumdg : ∀ (rs : List PartialResult), (∀ p ∈ rs, DictWF (proj p)) → ∀ k,
        (rs.map (fun p => sumKey (proj p) k)).sum =
          (rs.map (fun p => dgetD (proj p) k 0)).sum := by
      intro rs hrs k
      exact congrArg List.sum
        (List.map_congr_left (fun p hp => sumKey_eq_dgetD (proj p) k (hrs p hp)))
    refine ⟨?_, ?_, ?_⟩
    · intro k
      apply dget_ext
      · apply boolEqOfIff
        rw [foldl_merge_isSome proj hproj, foldl_merge_isSome proj hproj, hempty]
        simp only [dget, Option.isSome_none, Bool.false_eq_true, false_or]
        constructor
        · rintro ⟨p, hp, h⟩
          exact ⟨p, hpq.mem_iff.mp hp, h⟩
        · rintro ⟨p, hp, h⟩
          exact ⟨p, hpq.mem_iff.mpr hp, h⟩
      · rw [hfold ps, hfold qs]
        exact (hpq.map _).sum_eq
    · intro k
      rw [hfold ps k]
      exact hsumdg ps hwfp k
    · intro t hperm k
      have hwfl : ∀ p ∈ mergeTreeLeaves t, DictWF (proj p) :=
        fun p hp => hwfp p (hperm.mem_iff.mp hp)
      rw [mergeTree_dgetD proj hproj t k hwfl, hfold ps k]
      rw [show ((mergeTreeLeaves t).map (fun p => dgetD (proj p) k 0)).sum =
          (ps.map (fun p => dgetD (proj p) k 0)).sum from (hperm.map _).sum_eq]
      exact (hsumdg ps hwfp k).symm
  obtain ⟨hbl1, hbl2, hbl3⟩ := key (fun p => p.by_level) merge_by_level rfl
    (fun p hp => (hwf p hp).1)
  obtain ⟨hti1, hti2, hti3⟩ := key (fun p => p.top_ips) merge_top_ips rfl
    (fun p hp => (hwf p hp).2.1)
  obtain ⟨heh1, heh2, heh3⟩ := key (fun p => p.errors_by_hour) merge_errors_by_hour rfl
    (fun p hp => (hwf p hp).2.2)
  have hlt : ∀ (rs : List PartialResult),
      (rs.foldl merge_partial_results emptyAcc).lines_total =
        (rs.map PartialResult.lines_total).sum := by
    intro rs
    rw [foldl_merge_lines_total]
    simp [emptyAcc]
  refine ⟨?_, hbl1, hti1, heh1, hbl2, hti2, heh2, ?_⟩
  · rw [hlt ps, hlt qs]
    exact (hpq.map _).sum_eq
  · intro t hperm
    refine ⟨?_, hbl3 t hperm, hti3 t hperm, heh3 t hperm⟩
    rw [mergeTree_lines_total, hlt ps]
    exact (hperm.map _).sum_eq

/-- Two concrete partial results for exercising the merge. -/
def samplePR1 : PartialResult :=
  ⟨3, [("INFO", 2)], [("1.2.3.4", 1)], [("unknown", 1)]⟩

def samplePR2 : PartialResult :=
  ⟨1, [("ERROR", 1)], [], []⟩

theorem C2_merge_order_independence_witness :
    List.Perm [samplePR1, samplePR2] [samplePR2, samplePR1] ∧
    (∀ p ∈ [samplePR1, samplePR2],
      DictWF p.by_level ∧ DictWF p.top_ips ∧ DictWF p.errors_by_hour) ∧
    ((([samplePR1, samplePR2].foldl merge_partial_results emptyAcc).lines_total =
        ([samplePR2, samplePR1].foldl merge_partial_results emptyAcc).lines_total) ∧
      (∀ k, dget ([samplePR1, samplePR2].foldl merge_partial_results emptyAcc).by_level k =
        dget ([samplePR2, samplePR1].foldl merge_partial_results emptyAcc).by_level k) ∧
      (∀ k, dget ([samplePR1, samplePR2].foldl merge_partial_results emptyAcc).top_ips k =
        dget ([samplePR2, samplePR1].foldl merge_partial_results emptyAcc).top_ips k) ∧
      (∀ k, dget ([samplePR1, samplePR2].foldl merge_partial_results emptyAcc).errors_by_hour k =
        dget ([samplePR2, samplePR1].foldl merge_partial_results emptyAcc).errors_by_hour k) ∧
      (∀ k, dgetD ([samplePR1, samplePR2].foldl merge_partial_results emptyAcc).by_level k 0 =
        ([samplePR1, samplePR2].map (fun p => dgetD p.by_level k 0)).sum) ∧
      (∀ k, dgetD ([samplePR1, samplePR2].foldl merge_partial_results emptyAcc).top_ips k 0 =
        ([samplePR1, samplePR2].map (fun p => dgetD p.top_ips k 0)).sum) ∧
      (∀ k, dgetD ([samplePR1, samplePR2].foldl
          merge_partial_results emptyAcc).errors_by_hour k 0 =
        ([samplePR1, samplePR2].map (fun p => dgetD p.errors_by_hour k 0)).sum) ∧
      (∀ t : MergeTree, List.Perm (mergeTreeLeaves t) [samplePR1, samplePR2] →
        ((mergeTreeEval t).lines_total =
          ([samplePR1, samplePR2].foldl merge_partial_results emptyAcc).lines_total ∧
        (∀ k, dgetD (mergeTreeEval t).by_level k 0 =
          dgetD ([samplePR1, samplePR2].foldl merge_partial_results emptyAcc).by_level k 0) ∧
        (∀ k, dgetD (mergeTreeEval t).top_ips k 0 =
          dgetD ([samplePR1, samplePR2].foldl merge_partial_results emptyAcc).top_ips k 0) ∧
        (∀ k, dgetD (mergeTreeEval t).errors_by_hour k 0 =
          dgetD ([samplePR1, samplePR2].foldl
            merge_partial_results emptyAcc).errors_by_hour k 0)))) :=
  ⟨by decide, by decide,
    C2_merge_order_independence [samplePR1, samplePR2] [samplePR2, samplePR1]
      (by decide) (by decide)⟩
